import Mathlib

/-!
Shallow embedding of the public-API serializer (src/lib/serializer.ts) of
ts-api-guardian, together with theorems settling the specification claims.

The front end (TypeScript parser/typechecker, Node's path library) is an
external collaborator: its outputs are modelled as data carried by the
input values (syntax nodes with spans and leading-comment ranges, symbols
with declaration sites, a program holding parsed source files), while every
algorithm of the serializer itself is translated function-by-function.

Source text is modelled as a list of characters; `substring`/`getText`
become slice operations on that list.  JavaScript's stable
`Array.prototype.sort` (stable per the ECMAScript specification) is
modelled as a stable insertion sort, which computes the same list for any
consistent comparator.  `String.prototype.localeCompare` is modelled as a
deterministic total string comparison (a fixed collation).
-/

namespace TsApiGuardian

/-- Syntax kinds of the TypeScript AST that the serializer inspects.
All kinds the code never branches on are collapsed into `OtherKind`. -/
inductive SyntaxKind where
  | Identifier
  | PropertyAccessExpression
  | TypeReference
  | QualifiedName
  | SyntaxList
  | ClassDeclaration
  | InterfaceDeclaration
  | PropertySignature
  | PropertyDeclaration
  | GetAccessor
  | SetAccessor
  | CallSignature
  | Constructor
  | ConstructSignature
  | IndexSignature
  | MethodSignature
  | MethodDeclaration
  | DotToken
  | SourceFileNode
  | OtherKind
  deriving DecidableEq, Repr

/-- Node flags read by the serializer (`ts.NodeFlags.Export`,
`ts.NodeFlags.Private`, `ts.NodeFlags.Static`), modelled as booleans: the
code only ever tests whether the corresponding bit is set. -/
structure NodeFlags where
  isExport : Bool
  isPrivate : Bool
  isStatic : Bool
  deriving DecidableEq, Repr

/-- A comment range as produced by `ts.getLeadingCommentRanges`: a span
`[pos, endP)` into the source text. -/
structure CommentRange where
  pos : Nat
  endP : Nat
  deriving DecidableEq, Repr

/-- A syntax-tree node.  `pos` is the node's nominal start (including
leading trivia), `strt` models `node.getStart()` (first token character),
`endP` models `node.end`.  `nameSpan` models the span
`[name.getStart(), name.end)` of the declaration's `name` child when
present.  `leadingComments` models the answer of
`ts.getLeadingCommentRanges(sourceText, node.pos)` (comment scanning is
front-end work, so its result is carried as node data).  `children` models
`node.getChildren()`. -/
inductive Node where
  | mk (kind : SyntaxKind) (flags : NodeFlags) (pos strt endP : Nat)
       (nameSpan : Option (Nat × Nat))
       (leadingComments : List CommentRange)
       (children : List Node)

def Node.kind : Node → SyntaxKind
  | .mk k _ _ _ _ _ _ _ => k

def Node.flags : Node → NodeFlags
  | .mk _ f _ _ _ _ _ _ => f

def Node.pos : Node → Nat
  | .mk _ _ p _ _ _ _ _ => p

def Node.strt : Node → Nat
  | .mk _ _ _ s _ _ _ _ => s

def Node.endP : Node → Nat
  | .mk _ _ _ _ e _ _ _ => e

def Node.nameSpan : Node → Option (Nat × Nat)
  | .mk _ _ _ _ _ ns _ _ => ns

def Node.leadingComments : Node → List CommentRange
  | .mk _ _ _ _ _ _ lc _ => lc

def Node.children : Node → List Node
  | .mk _ _ _ _ _ _ _ cs => cs

@[simp] theorem Node.kind_mk (k f p s e ns lc cs) :
    (Node.mk k f p s e ns lc cs).kind = k := rfl

@[simp] theorem Node.flags_mk (k f p s e ns lc cs) :
    (Node.mk k f p s e ns lc cs).flags = f := rfl

@[simp] theorem Node.pos_mk (k f p s e ns lc cs) :
    (Node.mk k f p s e ns lc cs).pos = p := rfl

@[simp] theorem Node.strt_mk (k f p s e ns lc cs) :
    (Node.mk k f p s e ns lc cs).strt = s := rfl

@[simp] theorem Node.endP_mk (k f p s e ns lc cs) :
    (Node.mk k f p s e ns lc cs).endP = e := rfl

@[simp] theorem Node.nameSpan_mk (k f p s e ns lc cs) :
    (Node.mk k f p s e ns lc cs).nameSpan = ns := rfl

@[simp] theorem Node.leadingComments_mk (k f p s e ns lc cs) :
    (Node.mk k f p s e ns lc cs).leadingComments = lc := rfl

@[simp] theorem Node.children_mk (k f p s e ns lc cs) :
    (Node.mk k f p s e ns lc cs).children = cs := rfl

theorem Node.sizeOf_children_lt (n : Node) : sizeOf n.children < sizeOf n := by
  cases n with
  | mk k f p s e ns lc cs => simp [Node.children]

/-- A source file as far as the serializer reads it: its (normalized) file
name and its full text. -/
structure SourceFile where
  fileName : String
  text : List Char

/-- The `SerializationOptions` interface.  `stripExportPattern` models the
optional `RegExp` as the predicate `name => !!name.match(pattern)`;
`allowModuleIdentifiers` is the optional whitelist array. -/
structure SerializationOptions where
  stripExportPattern : Option (String → Bool)
  allowModuleIdentifiers : Option (List String)

/-- The serializer's failure modes (each a `throw new Error(...)` in the
source, here distinguished by the data interpolated into the message). -/
inductive SerializerError where
  | NotADeclarationFile (fileName : String)
  | EntryFileNotFound (fileName : String)
  | AliasRenamed (resolvedName aliasName : String)
  | UnlistedModuleIdentifier (idText fileName : String) (line character : Nat)
  deriving DecidableEq, Repr

/-- JavaScript's `text.substring(a, b)` on a character-list text (for the
in-range, `a ≤ b` uses the serializer makes). -/
def substringOf (text : List Char) (a b : Nat) : List Char :=
  (text.take b).drop a

/-- Model of `ts.SourceFile#getLineAndCharacterOfPosition`: 0-based line
and column of a character offset. -/
def lineAndCharacterOfPosition (text : List Char) (pos : Nat) : Nat × Nat :=
  let pre := text.take pos
  (pre.count '\n', (pre.reverse.takeWhile (fun c => c ≠ '\n')).length)

/-- JavaScript's `<` on strings restricted to the comparisons the
serializer performs: lexicographic comparison of the character sequences. -/
def jsLtChars : List Char → List Char → Bool
  | [], [] => false
  | [], _ :: _ => true
  | _ :: _, [] => false
  | a :: as, b :: bs => if a.toNat < b.toNat then true
      else if b.toNat < a.toNat then false else jsLtChars as bs

/-- The serializer's generic `compareFunction<T>(a, b) = a === b ? 0 : a > b ? 1 : -1`
instantiated at the numbers `a.flags & Static` (0 when the Static bit is
clear, the fixed nonzero bit when set, so ordered like 0/1). -/
def compareFunctionNat (a b : Nat) : Int :=
  if a = b then 0 else if b < a then 1 else -1

/-- The generic `compareFunction` instantiated at
`memberDeclarationOrder[kind]`, which is `undefined` exactly when the kind
is not in the table.  `undefined === undefined` holds and `>` is false on
any comparison involving `undefined`. -/
def compareFunctionRank : Option Nat → Option Nat → Int
  | none, none => 0
  | some a, some b => compareFunctionNat a b
  | none, some _ => -1
  | some _, none => -1

/-- The generic `compareFunction` instantiated at the member name texts. -/
def compareFunctionText (a b : List Char) : Int :=
  if a = b then 0 else if jsLtChars b a then 1 else -1

/-- JavaScript's `x || y` on comparator results: `y` when `x` is `0`. -/
def jsOrInt (x y : Int) : Int :=
  if x = 0 then y else x

/-- Stable insertion into a sorted list: the new element goes before the
first element it compares `≤` to, hence after all earlier tied elements. -/
def jsOrderedInsert (le : α → α → Bool) (a : α) : List α → List α
  | [] => [a]
  | b :: l => if le a b then a :: b :: l else b :: jsOrderedInsert le a l

/-- Model of `Array.prototype.sort` with a comparator: a stable sort by
`le a b = (cmp a b ≤ 0)`.  The ECMAScript specification requires the sort
to be stable, and every stable sort agrees with stable insertion sort on
consistent comparators. -/
def jsSortBy (le : α → α → Bool) : List α → List α
  | [] => []
  | x :: l => jsOrderedInsert le x (jsSortBy le l)

theorem sizeOf_jsOrderedInsert [SizeOf α] (le : α → α → Bool) (a : α) (l : List α) :
    sizeOf (jsOrderedInsert le a l) = 1 + sizeOf a + sizeOf l := by
  induction l with
  | nil => simp [jsOrderedInsert]
  | cons b t ih =>
    simp only [jsOrderedInsert]
    split
    · simp [List.cons.sizeOf_spec]
    · simp [List.cons.sizeOf_spec, ih]; omega

theorem sizeOf_jsSortBy [SizeOf α] (le : α → α → Bool) (l : List α) :
    sizeOf (jsSortBy le l) = sizeOf l := by
  induction l with
  | nil => rfl
  | cons b t ih => simp [jsSortBy, sizeOf_jsOrderedInsert, ih]

/-- In `getFirstQualifier`, the read of `(<PropertyAccessExpression>lhs).expression`:
defined (as the first child) exactly on property-access nodes. -/
def expressionOf (n : Node) : Option Node :=
  if n.kind = .PropertyAccessExpression then n.children.head? else none

/-- In `getFirstQualifier`, the read of `(<QualifiedName>lhs).left`:
defined (as the first child) exactly on qualified names. -/
def leftOf (n : Node) : Option Node :=
  if n.kind = .QualifiedName then n.children.head? else none

theorem sizeOf_of_expressionOf {n l : Node} (h : expressionOf n = some l) :
    sizeOf l < sizeOf n := by
  unfold expressionOf at h
  split at h
  · have hm : l ∈ n.children := by
      cases hc : n.children with
      | nil => rw [hc] at h; simp at h
      | cons a t => rw [hc] at h; simp at h; simp [hc, h]
    calc sizeOf l < sizeOf n.children := List.sizeOf_lt_of_mem hm
    _ < sizeOf n := Node.sizeOf_children_lt n
  · simp at h

theorem sizeOf_of_leftOf {n l : Node} (h : leftOf n = some l) :
    sizeOf l < sizeOf n := by
  unfold leftOf at h
  split at h
  · have hm : l ∈ n.children := by
      cases hc : n.children with
      | nil => rw [hc] at h; simp at h
      | cons a t => rw [hc] at h; simp at h; simp [hc, h]
    calc sizeOf l < sizeOf n.children := List.sizeOf_lt_of_mem hm
    _ < sizeOf n := Node.sizeOf_children_lt n
  · simp at h

/-- The `do { lhs = lhs.expression } while (lhs && lhs.kind !== Identifier)`
loop of `getFirstQualifier` for the expression position. -/
def chaseExpression (lhs : Node) : Option Node :=
  match h : expressionOf lhs with
  | none => none
  | some l => if l.kind = .Identifier then some l else chaseExpression l
termination_by sizeOf lhs
decreasing_by
  exact sizeOf_of_expressionOf h

/-- The `do { lhs = lhs.left } while (lhs && lhs.kind !== Identifier)`
loop of `getFirstQualifier` for the type position. -/
def chaseLeft (lhs : Node) : Option Node :=
  match h : leftOf lhs with
  | none => none
  | some l => if l.kind = .Identifier then some l else chaseLeft l
termination_by sizeOf lhs
decreasing_by
  exact sizeOf_of_leftOf h

/-- Returns the first qualifier if the input node is a dotted expression
(`getFirstQualifier` in the source; `null` becomes `none`).  For a type
reference the chase starts from `node.typeName`, the first child. -/
def getFirstQualifier (node : Node) : Option Node :=
  if node.kind = .PropertyAccessExpression then
    chaseExpression node
  else if node.kind = .TypeReference then
    match node.children.head? with
    | some typeName => chaseLeft typeName
    | none => none
  else
    none

/-- The constant `memberDeclarationOrder` table; kinds missing from the
object literal give `undefined`, here `none`. -/
def memberDeclarationOrder : SyntaxKind → Option Nat
  | .PropertySignature => some 0
  | .PropertyDeclaration => some 0
  | .GetAccessor => some 0
  | .SetAccessor => some 0
  | .CallSignature => some 1
  | .Constructor => some 2
  | .ConstructSignature => some 2
  | .IndexSignature => some 3
  | .MethodSignature => some 4
  | .MethodDeclaration => some 4
  | _ => none

/-- The value `a.flags & ts.NodeFlags.Static` as fed to `compareFunction`:
0 with the bit clear, the fixed nonzero bit value (ordered like 1) with it
set. -/
def staticValue (n : Node) : Nat :=
  if n.flags.isStatic then 1 else 0

/-- Text of `(a.name || a).getText()`: the name child's source span when a
name is present, the node's own `[getStart(), end)` span otherwise. -/
def nameOrSelfText (text : List Char) (n : Node) : List Char :=
  match n.nameSpan with
  | some sp => substringOf text sp.1 sp.2
  | none => substringOf text n.strt n.endP

/-- The member comparator passed to `children.sort` when sanitizing a
class/interface member list: static flag, then table rank, then name text,
combined with `||`. -/
def memberCompare (text : List Char) (a b : Node) : Int :=
  jsOrInt
    (jsOrInt (compareFunctionNat (staticValue a) (staticValue b))
      (compareFunctionRank (memberDeclarationOrder a.kind) (memberDeclarationOrder b.kind)))
    (compareFunctionText (nameOrSelfText text a) (nameOrSelfText text b))

/-- The test of the qualifier whitelist inside `getSanitizedText`:
`!options.allowModuleIdentifiers || options.allowModuleIdentifiers.indexOf(text) < 0`. -/
def qualifierNotAllowed (options : SerializationOptions) (idText : String) : Bool :=
  match options.allowModuleIdentifiers with
  | none => true
  | some l => !(l.contains idText)

/-- The `firstQualifier.text` read on the extracted identifier: the
identifier's source text. -/
def identifierText (sf : SourceFile) (q : Node) : String :=
  String.mk (substringOf sf.text q.strt q.endP)

/-- The qualifier check at the top of `getSanitizedText`: the error thrown
via `createErrorMessage` (which interpolates the file name and the 1-based
line/character of `firstQualifier.getStart()`), or `none` when sanitization
proceeds. -/
def qualifierFailure (sf : SourceFile) (options : SerializationOptions) (node : Node) :
    Option SerializerError :=
  match getFirstQualifier node with
  | none => none
  | some q =>
    if qualifierNotAllowed options (identifierText sf q) then
      let lc := lineAndCharacterOfPosition sf.text q.strt
      some (.UnlistedModuleIdentifier (identifierText sf q) sf.fileName (lc.1 + 1) (lc.2 + 1))
    else none

/-- The `let tail = node.pos; for (range of ranges) if (range.end > tail) tail = range.end`
computation over the leading-comment ranges of a childless node. -/
def commentTail (node : Node) : Nat :=
  node.leadingComments.foldl (fun t r => if t < r.endP then r.endP else t) node.pos

/-- The member-list sort condition: the node is a `SyntaxList`, its parent
is a class or interface declaration, and every child's kind is present in
`memberDeclarationOrder`. -/
def memberListSortable (parentKind : Option SyntaxKind) (node : Node) : Prop :=
  node.kind = .SyntaxList ∧
  (parentKind = some .ClassDeclaration ∨ parentKind = some .InterfaceDeclaration) ∧
  ∀ c ∈ node.children, (memberDeclarationOrder c.kind).isSome = true

instance (parentKind : Option SyntaxKind) (node : Node) :
    Decidable (memberListSortable parentKind node) := by
  unfold memberListSortable
  exact inferInstance

mutual

/-- Traverses the node tree to construct the text without comments and
privates (`getSanitizedText` in the source).  The parent's kind is passed
explicitly: it models the `node.parent && node.parent.kind` read on the
immutable tree.  A thrown `Error` becomes `Except.error`. -/
def getSanitizedText (sf : SourceFile) (options : SerializationOptions)
    (parentKind : Option SyntaxKind) (node : Node) :
    Except SerializerError (List Char) :=
  if node.flags.isPrivate then .ok [] else
  match qualifierFailure sf options node with
  | some e => .error e
  | none =>
    match hc : node.children with
    | [] =>
      .ok (substringOf sf.text (commentTail node) node.endP)
    | c :: cs =>
      let ordered :=
        if memberListSortable parentKind node then
          jsSortBy (fun a b => memberCompare sf.text a b ≤ 0) (c :: cs)
        else c :: cs
      getSanitizedTextList sf options (some node.kind) ordered
termination_by sizeOf node
decreasing_by
  simp_wf
  have h1 : sizeOf (c :: cs) < sizeOf node := by
    have := Node.sizeOf_children_lt node
    rw [hc] at this
    exact this
  have h2 : sizeOf (if memberListSortable parentKind node then
      jsSortBy (fun a b => memberCompare sf.text a b ≤ 0) (c :: cs) else c :: cs)
      = sizeOf (c :: cs) := by
    split
    · exact sizeOf_jsSortBy _ _
    · rfl
  omega

/-- The `children.map(n => getSanitizedText(n, options)).join('')` step:
child results concatenated in sequence, with a thrown error aborting the
whole traversal at the first failing child. -/
def getSanitizedTextList (sf : SourceFile) (options : SerializationOptions)
    (parentKind : Option SyntaxKind) : List Node → Except SerializerError (List Char)
  | [] => .ok []
  | c :: cs => do
    let t ← getSanitizedText sf options parentKind c
    let ts ← getSanitizedTextList sf options parentKind cs
    .ok (t ++ ts)
termination_by l => sizeOf l
decreasing_by
  all_goals simp_wf
  all_goals omega

end

/-- Splitting a character list at every occurrence of a separator. -/
def splitOnSep (sep : Char) : List Char → List (List Char)
  | [] => [[]]
  | c :: t =>
    let r := splitOnSep sep t
    if c = sep then [] :: r
    else (c :: r.headD []) :: r.tail

/-- Splitting on `'\n'` as JavaScript's `text.split('\n')` does (the empty
text yields one empty segment). -/
def splitLines (l : List Char) : List (List Char) :=
  splitOnSep '\n' l

/-- The `stripEmptyLines` helper: drop the zero-length lines and rejoin
with `'\n'`. -/
def stripEmptyLines (text : List Char) : List Char :=
  List.intercalate ['\n'] ((splitLines text).filter (fun x => x.length ≠ 0))

/-- A declaration site of a symbol: the declaration node, its chain of
ancestors (immediate parent first — the `parent` back-references of the
immutable tree), and the source file the node belongs to
(`node.getSourceFile()`). -/
structure Decl where
  node : Node
  ancestors : List Node
  sourceFile : SourceFile

/-- A `ts.Symbol` as far as the serializer reads it: its name, whether
`symbol.flags & ts.SymbolFlags.Alias` is set, `symbol.valueDeclaration`
(`none` for `undefined`) and `symbol.declarations` (`none` for
`undefined`; note an empty array is truthy in JavaScript, so
`some []` and `none` are distinguished exactly as the code distinguishes
them). -/
structure Symbol where
  name : String
  isAlias : Bool
  valueDeclaration : Option Decl
  declarations : Option (List Decl)

/-- The body of the `rawSymbols.map(s => ...)` callback in
`getResolvedSymbols`.  `getAliasedSymbol` is the typechecker's alias
resolution, an external collaborator passed in as a function. -/
def resolveSymbol (getAliasedSymbol : Symbol → Symbol) (s : Symbol) :
    Except SerializerError Symbol :=
  if s.isAlias then
    let resolvedSymbol := getAliasedSymbol s
    if resolvedSymbol.valueDeclaration.isNone ∧ resolvedSymbol.declarations.isNone then
      .ok s
    else if resolvedSymbol.name ≠ s.name then
      .error (.AliasRenamed resolvedSymbol.name s.name)
    else
      .ok resolvedSymbol
  else
    .ok s

/-- The `rawSymbols.map(...)` of `getResolvedSymbols`: a thrown error
aborts the whole map at the first offending symbol. -/
def getResolvedSymbols (getAliasedSymbol : Symbol → Symbol) :
    List Symbol → Except SerializerError (List Symbol)
  | [] => .ok []
  | s :: rest => do
    let r ← resolveSymbol getAliasedSymbol s
    let rs ← getResolvedSymbols getAliasedSymbol rest
    .ok (r :: rs)

/-- Model of `String.prototype.localeCompare` as used by
`symbolCompareFunction`: a deterministic total comparison of the two
names (a fixed collation, so that two invocations agree). -/
def jsLocaleCompare (a b : String) : Int :=
  if a = b then 0 else if jsLtChars a.data b.data then -1 else 1

/-- The `symbolCompareFunction` passed to `resolvedSymbols.sort`. -/
def symbolCompareFunction (a b : Symbol) : Int :=
  jsLocaleCompare a.name b.name

/-- The `resolvedSymbols.sort(symbolCompareFunction)` step. -/
def sortSymbols (l : List Symbol) : List Symbol :=
  jsSortBy (fun a b => symbolCompareFunction a b ≤ 0) l

/-- The `while (!(decl.flags & Export) && decl.parent) decl = decl.parent`
walk of `emitResolvedDeclarations`, returning the node it stops at
together with the kind of that node's parent (needed by the subsequent
`getSanitizedText` traversal's `node.parent.kind` read). -/
def walkToExport : Node → List Node → Node × Option SyntaxKind
  | d, [] => (d, none)
  | d, p :: ps => if d.flags.isExport then (d, some p.kind) else walkToExport p ps

/-- The `symbol.valueDeclaration || symbol.declarations && symbol.declarations[0]`
selection of a symbol's declaration. -/
def declOf (symbol : Symbol) : Option Decl :=
  match symbol.valueDeclaration with
  | some d => some d
  | none =>
    match symbol.declarations with
    | none => none
    | some l => l.head?

/-- The `options.stripExportPattern && symbol.name.match(options.stripExportPattern)`
skip test. -/
def stripMatches (options : SerializationOptions) (name : String) : Bool :=
  match options.stripExportPattern with
  | none => false
  | some p => p name

/-- The body of the `for (const symbol of resolvedSymbols)` loop of
`emitResolvedDeclarations`, with `output` as explicit accumulator.
Symbols without declaration, and declarations with no enclosing export
statement, emit a warning on the diagnostic channel and add nothing. -/
def assembleLoop (options : SerializationOptions) (output : List Char) :
    List Symbol → Except SerializerError (List Char)
  | [] => .ok output
  | symbol :: rest =>
    if stripMatches options symbol.name then
      assembleLoop options output rest
    else
      match declOf symbol with
      | none => assembleLoop options output rest
      | some decl =>
        let w := walkToExport decl.node decl.ancestors
        if w.1.flags.isExport then do
          let t ← getSanitizedText decl.sourceFile options w.2 w.1
          let output' := (if output = [] then output else output ++ ['\n'])
            ++ stripEmptyLines t ++ ['\n']
          assembleLoop options output' rest
        else
          assembleLoop options output rest

/-- A parsed source file entry of the program: the file, plus the
typechecker's view `(<any>sourceFile).symbol` /
`typeChecker.getExportsOfModule(ms) || []` (both nullish cases collapse to
an absent or empty export list, exactly as in the code). -/
structure SourceFileEntry where
  sourceFile : SourceFile
  moduleExports : Option (List Symbol)

/-- The front-end program: the parsed files (`program.getSourceFiles()`)
and the typechecker's alias resolution.  Produced by the external
`ts.createProgram`; consumed read-only by the serializer. -/
structure Program where
  sourceFiles : List SourceFileEntry
  getAliasedSymbol : Symbol → Symbol

/-- The raw exported symbols of a source file entry:
`ms ? typeChecker.getExportsOfModule(ms) || [] : []`. -/
def rawExports (entry : SourceFileEntry) : List Symbol :=
  entry.moduleExports.getD []

/-- The `emitResolvedDeclarations` function. -/
def emitResolvedDeclarations (program : Program) (fileName : String)
    (options : SerializationOptions) : Except SerializerError (List Char) :=
  match (program.sourceFiles.filter
      (fun e => e.sourceFile.fileName == fileName)).head? with
  | none => .error (.EntryFileNotFound fileName)
  | some entry => do
    let resolvedSymbols ← getResolvedSymbols program.getAliasedSymbol (rawExports entry)
    assembleLoop options [] (sortSymbols resolvedSymbols)

/-- One step of component resolution in Node's posix `path.normalize`:
empty and `.` components vanish, `..` pops a poppable previous component. -/
def normalizeStep (isAbs : Bool) (acc : List (List Char)) (comp : List Char) : List (List Char) :=
  if comp = [] ∨ comp = ['.'] then acc
  else if comp = ['.', '.'] then
    match acc.getLast? with
    | some prev => if prev = ['.', '.'] then acc ++ [comp] else acc.dropLast
    | none => if isAbs then acc else [comp]
  else acc ++ [comp]

/-- Modelled from the external Node `path` library: posix
`path.normalize` (collapse `.`/`..`/repeated separators, keep a trailing
separator).  Only the resulting string's tail matters to the serializer's
declaration-file check. -/
def pathNormalize (p : String) : String :=
  if p.data = [] then "." else
  let isAbs : Bool := p.data.head? = some '/'
  let comps := (splitOnSep '/' p.data).foldl (normalizeStep isAbs) []
  let trailing : Bool := p.data.getLast? = some '/'
  let core := (if isAbs then ['/'] else []) ++ List.intercalate ['/'] comps
  String.mk
    (if core = [] then (if trailing then ['.', '/'] else ['.'])
     else if trailing ∧ core.getLast? ≠ some '/' then core ++ ['/']
     else core)

/-- The `entrypoint.match(/\.d\.ts$/)` test of `publicApiInternal`. -/
def isDeclarationFileName (s : String) : Bool :=
  List.isSuffixOf ['.', 'd', '.', 't', 's'] s.data

/-- The `publicApiInternal` entry point.  The external
`ts.createProgram(entrypoint, tsOptions, host)` call is modelled by the
injected `host` already carrying the parsed program view (the compiler
options only configure that external front end). -/
def publicApiInternal (host : Program) (fileName : String)
    (options : SerializationOptions) : Except SerializerError (List Char) :=
  let entrypoint := pathNormalize fileName
  if ¬ isDeclarationFileName entrypoint then
    .error (.NotADeclarationFile fileName)
  else
    emitResolvedDeclarations host entrypoint options

/-! ### Generic infrastructure: node induction and properties of the sorts -/

theorem Node.inductionOn (P : Node → Prop)
    (step : ∀ (k : SyntaxKind) (f : NodeFlags) (p s e : Nat)
      (ns : Option (Nat × Nat)) (lc : List CommentRange) (cs : List Node),
      (∀ c ∈ cs, P c) → P (Node.mk k f p s e ns lc cs)) :
    ∀ n, P n
  | .mk k f p s e ns lc cs =>
    step k f p s e ns lc cs (fun c hc => Node.inductionOn P step c)
termination_by n => sizeOf n
decreasing_by
  calc sizeOf c < sizeOf cs := List.sizeOf_lt_of_mem hc
  _ < sizeOf (Node.mk k f p s e ns lc cs) := by simp

@[simp] theorem mem_jsOrderedInsert {le : α → α → Bool} {a x : α} {l : List α} :
    x ∈ jsOrderedInsert le a l ↔ x = a ∨ x ∈ l := by
  induction l with
  | nil => simp [jsOrderedInsert]
  | cons b t ih =>
    simp only [jsOrderedInsert]
    split
    · simp [or_comm, or_assoc, or_left_comm]
    · simp [ih, or_comm, or_assoc, or_left_comm]

theorem jsOrderedInsert_perm (le : α → α → Bool) (a : α) (l : List α) :
    List.Perm (jsOrderedInsert le a l) (a :: l) := by
  induction l with
  | nil => rfl
  | cons b t ih =>
    simp only [jsOrderedInsert]
    split
    · rfl
    · exact (ih.cons b).trans (List.Perm.swap a b t)

theorem jsSortBy_perm (le : α → α → Bool) (l : List α) : List.Perm (jsSortBy le l) l := by
  induction l with
  | nil => rfl
  | cons a t ih => exact (jsOrderedInsert_perm le a (jsSortBy le t)).trans (ih.cons a)

@[simp] theorem mem_jsSortBy {le : α → α → Bool} {x : α} {l : List α} :
    x ∈ jsSortBy le l ↔ x ∈ l :=
  (jsSortBy_perm le l).mem_iff

theorem jsOrderedInsert_congr {le₁ le₂ : α → α → Bool} (a : α) {l : List α}
    (h : ∀ b ∈ l, le₁ a b = le₂ a b) :
    jsOrderedInsert le₁ a l = jsOrderedInsert le₂ a l := by
  induction l with
  | nil => rfl
  | cons b t ih =>
    simp only [jsOrderedInsert]
    rw [h b (by simp)]
    split
    · rfl
    · rw [ih (fun x hx => h x (by simp [hx]))]

theorem jsSortBy_congr {le₁ le₂ : α → α → Bool} {l : List α}
    (h : ∀ a ∈ l, ∀ b ∈ l, le₁ a b = le₂ a b) :
    jsSortBy le₁ l = jsSortBy le₂ l := by
  induction l with
  | nil => rfl
  | cons a t ih =>
    simp only [jsSortBy]
    rw [ih (fun x hx y hy => h x (by simp [hx]) y (by simp [hy]))]
    exact jsOrderedInsert_congr a (fun b hb =>
      h a (by simp) b (by simp [(mem_jsSortBy).mp hb]))

theorem pairwise_jsOrderedInsert {le : α → α → Bool} {a : α} {l : List α}
    (htrans : ∀ x ∈ a :: l, ∀ y ∈ a :: l, ∀ z ∈ a :: l,
      le x y = true → le y z = true → le x z = true)
    (htot : ∀ b ∈ l, le a b = true ∨ le b a = true)
    (hs : l.Pairwise (fun x y => le x y = true)) :
    (jsOrderedInsert le a l).Pairwise (fun x y => le x y = true) := by
  induction l with
  | nil => simp [jsOrderedInsert]
  | cons b t ih =>
    simp only [jsOrderedInsert]
    rcases List.pairwise_cons.mp hs with ⟨hb, ht⟩
    split
    · rename_i hab
      refine List.pairwise_cons.mpr ⟨?_, hs⟩
      intro x hx
      rcases List.mem_cons.mp hx with hx | hx
      · exact hx ▸ hab
      · exact htrans a (by simp) b (by simp) x (by simp [hx]) hab (hb x hx)
    · rename_i hab
      have hba : le b a = true := by
        rcases htot b (by simp) with h1 | h1
        · exact absurd h1 hab
        · exact h1
      have ih' := ih
        (fun x hx y hy z hz hxy hyz => by
          refine htrans x ?_ y ?_ z ?_ hxy hyz
          · rcases List.mem_cons.mp hx with hx | hx
            · simp [hx]
            · simp [hx]
          · rcases List.mem_cons.mp hy with hy | hy
            · simp [hy]
            · simp [hy]
          · rcases List.mem_cons.mp hz with hz | hz
            · simp [hz]
            · simp [hz])
        (fun x hx => htot x (by simp [hx])) ht
      refine List.pairwise_cons.mpr ⟨?_, ih'⟩
      intro x hx
      rcases (mem_jsOrderedInsert).mp hx with hx | hx
      · exact hx ▸ hba
      · exact hb x hx

theorem pairwise_jsSortBy {le : α → α → Bool} {l : List α}
    (htrans : ∀ x ∈ l, ∀ y ∈ l, ∀ z ∈ l,
      le x y = true → le y z = true → le x z = true)
    (htot : ∀ x ∈ l, ∀ y ∈ l, le x y = true ∨ le y x = true) :
    (jsSortBy le l).Pairwise (fun x y => le x y = true) := by
  induction l with
  | nil => simp [jsSortBy]
  | cons a t ih =>
    simp only [jsSortBy]
    have hmem : ∀ x ∈ jsSortBy le t, x ∈ a :: t := by
      intro x hx
      simp [(mem_jsSortBy).mp hx]
    refine pairwise_jsOrderedInsert ?_ ?_ ?_
    · intro x hx y hy z hz hxy hyz
      have hx' : x ∈ a :: t := by
        rcases List.mem_cons.mp hx with h | h
        · simp [h]
        · exact hmem x h
      have hy' : y ∈ a :: t := by
        rcases List.mem_cons.mp hy with h | h
        · simp [h]
        · exact hmem y h
      have hz' : z ∈ a :: t := by
        rcases List.mem_cons.mp hz with h | h
        · simp [h]
        · exact hmem z h
      exact htrans x hx' y hy' z hz' hxy hyz
    · intro b hb
      exact htot a (by simp) b (hmem b hb)
    · exact ih
        (fun x hx y hy z hz => htrans x (by simp [hx]) y (by simp [hy]) z (by simp [hz]))
        (fun x hx y hy => htot x (by simp [hx]) y (by simp [hy]))

theorem jsOrderedInsert_split (le : α → α → Bool) (a : α) (l : List α) :
    ∃ p s, l = p ++ s ∧ jsOrderedInsert le a l = p ++ a :: s ∧
      ∀ x ∈ p, le a x = false := by
  induction l with
  | nil => exact ⟨[], [], by simp [jsOrderedInsert]⟩
  | cons b t ih =>
    simp only [jsOrderedInsert]
    by_cases hab : le a b = true
    · exact ⟨[], b :: t, by simp [hab]⟩
    · rcases ih with ⟨p, s, h1, h2, h3⟩
      refine ⟨b :: p, s, by simp [h1], ?_, ?_⟩
      · simp [hab, h2]
      · intro x hx
        rcases List.mem_cons.mp hx with h | h
        · simpa [h] using hab
        · exact h3 x h

theorem sublist_jsOrderedInsert (le : α → α → Bool) (a : α) (l : List α) :
    List.Sublist l (jsOrderedInsert le a l) := by
  rcases jsOrderedInsert_split le a l with ⟨p, s, h1, h2, -⟩
  rw [h2, h1]
  exact List.Sublist.append (List.Sublist.refl p) (List.sublist_cons_self a s)

theorem pair_sublist_jsSortBy {le : α → α → Bool} {x y : α} {l : List α}
    (hs : List.Sublist [x, y] l) (hxy : le x y = true) :
    List.Sublist [x, y] (jsSortBy le l) := by
  induction l with
  | nil => cases hs
  | cons z t ih =>
    simp only [jsSortBy]
    cases hs with
    | cons _a h =>
      exact (ih h).trans (sublist_jsOrderedInsert le z (jsSortBy le t))
    | cons₂ _a h =>
      rcases jsOrderedInsert_split le x (jsSortBy le t) with ⟨p, s, h1, h2, h3⟩
      rw [h2]
      have hy : y ∈ s := by
        have hyt : y ∈ jsSortBy le t := by
          simp [(List.singleton_sublist).mp h]
        rw [h1] at hyt
        rcases List.mem_append.mp hyt with hp | hsuf
        · simp [h3 y hp] at hxy
        · exact hsuf
      have hxs : List.Sublist [x, y] (x :: s) :=
        List.Sublist.cons₂ x (List.singleton_sublist.mpr hy)
      exact hxs.trans (List.sublist_append_right p (x :: s))

theorem eq_of_perm_of_pairwise {le : α → α → Bool} :
    ∀ {l₁ l₂ : List α}, List.Perm l₁ l₂ →
    l₁.Pairwise (fun x y => le x y = true) →
    l₂.Pairwise (fun x y => le x y = true) →
    (∀ x ∈ l₁, ∀ y ∈ l₁, le x y = true → le y x = true → x = y) →
    l₁ = l₂
  | [], l₂, hp, _, _, _ => by simpa using hp.nil_eq.symm
  | a :: t₁, [], hp, _, _, _ => by simpa using hp.length_eq
  | a :: t₁, b :: t₂, hp, hs₁, hs₂, hanti => by
    rcases List.pairwise_cons.mp hs₁ with ⟨ha, ht₁⟩
    rcases List.pairwise_cons.mp hs₂ with ⟨hb, ht₂⟩
    have hab : a = b := by
      have hbmem : b ∈ a :: t₁ := hp.mem_iff.mpr (by simp)
      have hamem : a ∈ b :: t₂ := hp.mem_iff.mp (by simp)
      rcases List.mem_cons.mp hbmem with h | h
      · exact h.symm
      · rcases List.mem_cons.mp hamem with h' | h'
        · exact h'
        · exact hanti a (by simp) b (by simp [h]) (ha b h) (hb a h')
    subst hab
    have htp : List.Perm t₁ t₂ := hp.cons_inv
    have := eq_of_perm_of_pairwise htp ht₁ ht₂
      (fun x hx y hy => hanti x (by simp [hx]) y (by simp [hy]))
    rw [this]

/-! ### Order properties of the character comparison -/

theorem jsLtChars_irrefl : ∀ a, jsLtChars a a = false
  | [] => rfl
  | c :: t => by simp [jsLtChars, jsLtChars_irrefl t]

theorem jsLtChars_asymm : ∀ {a b}, jsLtChars a b = true → jsLtChars b a = false
  | [], [], h => by simp [jsLtChars] at h
  | [], _ :: _, _ => rfl
  | _ :: _, [], h => by simp [jsLtChars] at h
  | x :: xs, y :: ys, h => by
    simp only [jsLtChars] at h ⊢
    rcases Nat.lt_trichotomy x.toNat y.toNat with hlt | heq | hgt
    · simp [hlt, Nat.not_lt.mpr (Nat.le_of_lt hlt)]
    · have h1 : ¬ x.toNat < y.toNat := by omega
      have h2 : ¬ y.toNat < x.toNat := by omega
      simp only [h1, h2, if_false, if_true, ite_false, ite_true] at h ⊢
      exact jsLtChars_asymm h
    · simp [hgt, Nat.not_lt.mpr (Nat.le_of_lt hgt)] at h

theorem jsLtChars_connex : ∀ {a b : List Char}, a ≠ b →
    jsLtChars a b = true ∨ jsLtChars b a = true
  | [], [], h => absurd rfl h
  | [], _ :: _, _ => Or.inl rfl
  | _ :: _, [], _ => Or.inr rfl
  | x :: xs, y :: ys, h => by
    simp only [jsLtChars]
    rcases Nat.lt_trichotomy x.toNat y.toNat with hlt | heq | hgt
    · simp [hlt]
    · have hxy : x = y := Char.ext (UInt32.ext heq)
      subst hxy
      have hne : xs ≠ ys := by
        intro hx
        exact h (by rw [hx])
      simpa using jsLtChars_connex hne
    · simp [hgt, Nat.not_lt.mpr (Nat.le_of_lt hgt)]

theorem jsLtChars_trans : ∀ {a b c : List Char}, jsLtChars a b = true →
    jsLtChars b c = true → jsLtChars a c = true
  | [], [], _, hab, _ => by simp [jsLtChars] at hab
  | [], _ :: _, [], _, hbc => by simp [jsLtChars] at hbc
  | [], _ :: _, _ :: _, _, _ => rfl
  | _ :: _, [], _, hab, _ => by simp [jsLtChars] at hab
  | _ :: _, _ :: _, [], _, hbc => by simp [jsLtChars] at hbc
  | x :: xs, y :: ys, z :: zs, hab, hbc => by
    simp only [jsLtChars] at hab hbc ⊢
    rcases Nat.lt_trichotomy x.toNat y.toNat with h1 | h1 | h1
    · rcases Nat.lt_trichotomy y.toNat z.toNat with h2 | h2 | h2
      · simp [Nat.lt_trans h1 h2]
      · simp [h2 ▸ h1]
      · simp [h2, Nat.not_lt.mpr (Nat.le_of_lt h2)] at hbc
    · rcases Nat.lt_trichotomy y.toNat z.toNat with h2 | h2 | h2
      · simp [h1 ▸ h2]
      · have hxy : ¬ x.toNat < y.toNat := by omega
        have hyx : ¬ y.toNat < x.toNat := by omega
        have hyz : ¬ y.toNat < z.toNat := by omega
        have hzy : ¬ z.toNat < y.toNat := by omega
        have hxz : ¬ x.toNat < z.toNat := by omega
        have hzx : ¬ z.toNat < x.toNat := by omega
        simp only [hxy, hyx, hyz, hzy, if_false, if_true, ite_false, ite_true] at hab hbc
        simp only [hxz, hzx, if_false, if_true, ite_false, ite_true]
        exact jsLtChars_trans hab hbc
      · simp [h2, Nat.not_lt.mpr (Nat.le_of_lt h2)] at hbc
    · simp [h1, Nat.not_lt.mpr (Nat.le_of_lt h1)] at hab

/-! ### Case equations for the sanitizer -/

theorem getSanitizedText_private (sf : SourceFile) (options : SerializationOptions)
    (pk : Option SyntaxKind) {node : Node} (h : node.flags.isPrivate = true) :
    getSanitizedText sf options pk node = .ok [] := by
  rw [getSanitizedText]
  simp [h]

theorem getSanitizedText_error (sf : SourceFile) (options : SerializationOptions)
    (pk : Option SyntaxKind) {node : Node} {e : SerializerError}
    (h1 : node.flags.isPrivate = false)
    (h2 : qualifierFailure sf options node = some e) :
    getSanitizedText sf options pk node = .error e := by
  rw [getSanitizedText]
  simp [h1, h2]

theorem getSanitizedText_leaf (sf : SourceFile) (options : SerializationOptions)
    (pk : Option SyntaxKind) {node : Node}
    (h1 : node.flags.isPrivate = false)
    (h2 : qualifierFailure sf options node = none)
    (h3 : node.children = []) :
    getSanitizedText sf options pk node =
      .ok (substringOf sf.text (commentTail node) node.endP) := by
  rw [getSanitizedText]
  simp only [h1, h2, Bool.false_eq_true, if_false, ite_false]
  split
  · rfl
  · rename_i c cs heq
    rw [h3] at heq
    cases heq

theorem getSanitizedText_branch (sf : SourceFile) (options : SerializationOptions)
    (pk : Option SyntaxKind) {node : Node} {c : Node} {cs : List Node}
    (h1 : node.flags.isPrivate = false)
    (h2 : qualifierFailure sf options node = none)
    (h3 : node.children = c :: cs) :
    getSanitizedText sf options pk node =
      getSanitizedTextList sf options (some node.kind)
        (if memberListSortable pk node then
          jsSortBy (fun a b => memberCompare sf.text a b ≤ 0) (c :: cs)
        else c :: cs) := by
  rw [getSanitizedText]
  simp only [h1, h2, Bool.false_eq_true, if_false, ite_false]
  split
  · rename_i heq
    rw [h3] at heq
    cases heq
  · rename_i c' cs' heq
    rw [h3] at heq
    injection heq with e1 e2
    subst e1
    subst e2
    rfl

theorem getSanitizedTextList_nil (sf : SourceFile) (options : SerializationOptions)
    (pk : Option SyntaxKind) :
    getSanitizedTextList sf options pk [] = .ok [] := by
  rw [getSanitizedTextList]

theorem getSanitizedTextList_cons (sf : SourceFile) (options : SerializationOptions)
    (pk : Option SyntaxKind) (c : Node) (cs : List Node) :
    getSanitizedTextList sf options pk (c :: cs) = (do
      let t ← getSanitizedText sf options pk c
      let ts ← getSanitizedTextList sf options pk cs
      Except.ok (t ++ ts)) := by
  rw [getSanitizedTextList]

/-! ### Basic facts about qualifier extraction -/

theorem getFirstQualifier_of_leaf {node : Node} (h : node.children = []) :
    getFirstQualifier node = none := by
  unfold getFirstQualifier
  split
  · rw [chaseExpression]
    split
    · rfl
    · rename_i l heq
      unfold expressionOf at heq
      rw [h] at heq
      simp at heq
  · split
    · rename_i hk
      rw [h]
      simp
    · rfl

theorem getFirstQualifier_of_kind {node : Node}
    (h1 : node.kind ≠ .PropertyAccessExpression)
    (h2 : node.kind ≠ .TypeReference) :
    getFirstQualifier node = none := by
  unfold getFirstQualifier
  simp [h1, h2]

theorem qualifierFailure_of_none {sf : SourceFile} {options : SerializationOptions}
    {node : Node} (h : getFirstQualifier node = none) :
    qualifierFailure sf options node = none := by
  unfold qualifierFailure
  simp [h]

theorem qualifierFailure_eq_some {sf : SourceFile} {options : SerializationOptions}
    {node q : Node} (h : getFirstQualifier node = some q)
    (hna : qualifierNotAllowed options (identifierText sf q) = true) :
    qualifierFailure sf options node =
      some (.UnlistedModuleIdentifier (identifierText sf q) sf.fileName
        ((lineAndCharacterOfPosition sf.text q.strt).1 + 1)
        ((lineAndCharacterOfPosition sf.text q.strt).2 + 1)) := by
  unfold qualifierFailure
  simp [h, hna]

theorem qualifierFailure_eq_none {sf : SourceFile} {options : SerializationOptions}
    {node q : Node} (h : getFirstQualifier node = some q)
    (hna : qualifierNotAllowed options (identifierText sf q) = false) :
    qualifierFailure sf options node = none := by
  unfold qualifierFailure
  simp [h, hna]

/-! ### Shared concrete fixtures for witnesses -/

/-- A tiny source file used by concrete witnesses. -/
def sampleSF : SourceFile :=
  ⟨"sample.d.ts", ['a', 'b', 'c', 'd', 'e', 'f']⟩

/-- The empty options record (`{}` at the call sites of the source). -/
def emptyOptions : SerializationOptions :=
  ⟨none, none⟩

/-- Flags with none of the inspected bits set. -/
def noFlags : NodeFlags :=
  ⟨false, false, false⟩

/-- A childless sample node flagged private. -/
def samplePrivateNode : Node :=
  .mk .PropertyDeclaration ⟨false, true, false⟩ 0 0 3 none [] []

/-- An empty program (no parsed files). -/
def emptyProgram : Program :=
  ⟨[], id⟩

/-! ### Claim C5: private pruning -/

/-- C5: for every node flagged private, `getSanitizedText` returns the
empty string, so the whole subtree below that node — every descendant
leaf — contributes zero characters to the assembled output. -/
theorem c5_private_prunes_subtree (sf : SourceFile) (options : SerializationOptions)
    (pk : Option SyntaxKind) (node : Node) (h : node.flags.isPrivate = true) :
    getSanitizedText sf options pk node = .ok [] ∧
    ∀ t, getSanitizedText sf options pk node = .ok t → t.length = 0 := by
  refine ⟨getSanitizedText_private sf options pk h, ?_⟩
  intro t ht
  rw [getSanitizedText_private sf options pk h] at ht
  cases ht
  rfl

theorem c5_private_prunes_subtree_witness :
    samplePrivateNode.flags.isPrivate = true ∧
    getSanitizedText sampleSF emptyOptions none samplePrivateNode = .ok [] :=
  ⟨rfl, (c5_private_prunes_subtree sampleSF emptyOptions none samplePrivateNode rfl).1⟩

/-! ### Claim C9: determinism -/

/-- C9: the pipeline is a pure function of the front-end view (program),
the entry file name and the configuration: two invocations of
`publicApiInternal` on identical inputs produce identical output.  In this
embedding every stage is a mathematical function with no hidden state, so
determinism is definitional. -/
theorem c9_publicApiInternal_deterministic (host₁ host₂ : Program)
    (file₁ file₂ : String) (options₁ options₂ : SerializationOptions)
    (hh : host₁ = host₂) (hf : file₁ = file₂) (ho : options₁ = options₂) :
    publicApiInternal host₁ file₁ options₁ = publicApiInternal host₂ file₂ options₂ := by
  rw [hh, hf, ho]

theorem c9_publicApiInternal_deterministic_witness :
    publicApiInternal emptyProgram "sample.d.ts" emptyOptions =
      publicApiInternal emptyProgram "sample.d.ts" emptyOptions :=
  c9_publicApiInternal_deterministic emptyProgram emptyProgram
    "sample.d.ts" "sample.d.ts" emptyOptions emptyOptions rfl rfl rfl

/-! ### Claim C7: entry validation -/

/-- C7: when the entry path fails the declaration-file name check, the run
fails with `NotADeclarationFile` for every host — before any parsing or
symbol resolution, independent of file content (the conclusion holds
uniformly in `host`); otherwise, when the entry file is not among the
parsed files, the run fails with `EntryFileNotFound`. -/
theorem c7_entry_validation (host : Program) (fileName : String)
    (options : SerializationOptions) :
    (isDeclarationFileName (pathNormalize fileName) = false →
      publicApiInternal host fileName options = .error (.NotADeclarationFile fileName)) ∧
    (isDeclarationFileName (pathNormalize fileName) = true →
      (∀ e ∈ host.sourceFiles, e.sourceFile.fileName ≠ pathNormalize fileName) →
      publicApiInternal host fileName options =
        .error (.EntryFileNotFound (pathNormalize fileName))) := by
  constructor
  · intro h
    unfold publicApiInternal
    simp [h]
  · intro h habs
    unfold publicApiInternal
    rw [if_neg (by simp [h])]
    unfold emitResolvedDeclarations
    have : host.sourceFiles.filter
        (fun e => e.sourceFile.fileName == pathNormalize fileName) = [] := by
      rw [List.filter_eq_nil]
      intro e he
      simp [habs e he]
    rw [this]
    rfl

theorem c7_entry_validation_witness :
    publicApiInternal emptyProgram "notdts.ts" emptyOptions =
      .error (.NotADeclarationFile "notdts.ts") ∧
    publicApiInternal emptyProgram "missing.d.ts" emptyOptions =
      .error (.EntryFileNotFound "missing.d.ts") := by
  constructor
  · exact (c7_entry_validation emptyProgram "notdts.ts" emptyOptions).1 (by decide)
  · have := (c7_entry_validation emptyProgram "missing.d.ts" emptyOptions).2
      (by decide) (by intro e he; cases he)
    simpa using this

/-! ### Claim C2: alias resolution -/

@[simp] theorem error_bind {e : ε} {f : α → Except ε β} :
    (Except.error e >>= f : Except ε β) = Except.error e := rfl

@[simp] theorem ok_bind {a : α} {f : α → Except ε β} :
    (Except.ok a >>= f : Except ε β) = f a := rfl

theorem resolveSymbol_error_form {env : Symbol → Symbol} {s : Symbol}
    {e : SerializerError} (h : resolveSymbol env s = .error e) :
    ∃ a b, e = .AliasRenamed a b := by
  simp only [resolveSymbol] at h
  split at h
  · split at h
    · cases h
    · split at h
      · cases h
        exact ⟨_, _, rfl⟩
      · cases h
  · cases h

theorem getResolvedSymbols_error_of_mem {env : Symbol → Symbol} {s : Symbol}
    {e : SerializerError} :
    ∀ {raw : List Symbol}, s ∈ raw → resolveSymbol env s = .error e →
    ∃ a b, getResolvedSymbols env raw = .error (.AliasRenamed a b)
  | [], hmem, _ => absurd hmem (by simp)
  | x :: rest, hmem, herr => by
    rw [getResolvedSymbols]
    cases hx : resolveSymbol env x with
    | error e₀ =>
      rcases resolveSymbol_error_form hx with ⟨a, b, rfl⟩
      exact ⟨a, b, by simp [hx]⟩
    | ok r =>
      rcases List.mem_cons.mp hmem with rfl | hmem'
      · rw [hx] at herr
        cases herr
      · rcases getResolvedSymbols_error_of_mem hmem' herr with ⟨a, b, htail⟩
        exact ⟨a, b, by simp [hx, htail]⟩

/-- C2: behaviour of export resolution on each raw exported symbol: a
non-alias is kept as-is; an alias whose target has no declaration at all
is kept unresolved without failing; an alias whose target has some
declaration under a different name makes the whole resolution run fail
with `AliasRenamed`; an alias whose target has a declaration and the same
name is replaced by the target. -/
theorem c2_resolveExports_alias_behaviour (env : Symbol → Symbol) (s : Symbol) :
    (s.isAlias = false → resolveSymbol env s = .ok s) ∧
    (s.isAlias = true → (env s).valueDeclaration = none → (env s).declarations = none →
      resolveSymbol env s = .ok s) ∧
    (s.isAlias = true →
      ((env s).valueDeclaration ≠ none ∨ (env s).declarations ≠ none) →
      (env s).name ≠ s.name →
      resolveSymbol env s = .error (.AliasRenamed (env s).name s.name) ∧
      ∀ raw : List Symbol, s ∈ raw →
        ∃ a b, getResolvedSymbols env raw = .error (.AliasRenamed a b)) ∧
    (s.isAlias = true →
      ((env s).valueDeclaration ≠ none ∨ (env s).declarations ≠ none) →
      (env s).name = s.name →
      resolveSymbol env s = .ok (env s)) := by
  refine ⟨?_, ?_, ?_, ?_⟩
  · intro h
    unfold resolveSymbol
    rw [if_neg (by simp [h])]
  · intro h h1 h2
    unfold resolveSymbol
    rw [if_pos h]
    show (if (env s).valueDeclaration.isNone ∧ (env s).declarations.isNone then
        Except.ok s
      else if (env s).name ≠ s.name then
        Except.error (SerializerError.AliasRenamed (env s).name s.name)
      else Except.ok (env s)) = Except.ok s
    rw [if_pos ⟨by simp [h1], by simp [h2]⟩]
  · intro h hdecl hname
    have hd : ¬ ((env s).valueDeclaration.isNone = true ∧ (env s).declarations.isNone = true) := by
      rcases hdecl with hd | hd
      · intro hc
        exact hd (Option.isNone_iff_eq_none.mp hc.1)
      · intro hc
        exact hd (Option.isNone_iff_eq_none.mp hc.2)
    have herr : resolveSymbol env s = .error (.AliasRenamed (env s).name s.name) := by
      unfold resolveSymbol
      rw [if_pos h]
      show (if (env s).valueDeclaration.isNone ∧ (env s).declarations.isNone then
          Except.ok s
        else if (env s).name ≠ s.name then
          Except.error (SerializerError.AliasRenamed (env s).name s.name)
        else Except.ok (env s)) = _
      rw [if_neg hd, if_pos hname]
    exact ⟨herr, fun raw hmem => getResolvedSymbols_error_of_mem hmem herr⟩
  · intro h hdecl hname
    have hd : ¬ ((env s).valueDeclaration.isNone = true ∧ (env s).declarations.isNone = true) := by
      rcases hdecl with hd | hd
      · intro hc
        exact hd (Option.isNone_iff_eq_none.mp hc.1)
      · intro hc
        exact hd (Option.isNone_iff_eq_none.mp hc.2)
    unfold resolveSymbol
    rw [if_pos h]
    show (if (env s).valueDeclaration.isNone ∧ (env s).declarations.isNone then
        Except.ok s
      else if (env s).name ≠ s.name then
        Except.error (SerializerError.AliasRenamed (env s).name s.name)
      else Except.ok (env s)) = Except.ok (env s)
    rw [if_neg hd, if_neg (by simp [hname])]

/-- A sample declaration site for the alias witnesses. -/
def sampleDecl : Decl :=
  ⟨.mk .ClassDeclaration noFlags 0 0 3 none [] [], [], sampleSF⟩

/-- A direct (non-alias) exported symbol. -/
def directSym : Symbol :=
  ⟨"Direct", false, some sampleDecl, none⟩

/-- An alias whose target will have no declaration at all. -/
def aliasNoDeclSym : Symbol :=
  ⟨"External", true, none, none⟩

/-- An alias whose target is renamed. -/
def aliasRenamedSym : Symbol :=
  ⟨"Bar", true, none, none⟩

/-- An alias whose target keeps the name. -/
def aliasSameSym : Symbol :=
  ⟨"Foo", true, none, none⟩

/-- The typechecker's alias resolution used by the C2 witness. -/
def sampleAliasEnv : Symbol → Symbol :=
  fun s =>
    if s.name = "Bar" then ⟨"Foo", false, some sampleDecl, none⟩
    else if s.name = "Foo" then ⟨"Foo", false, some sampleDecl, none⟩
    else ⟨"External", false, none, none⟩

theorem c2_resolveExports_alias_behaviour_witness :
    resolveSymbol sampleAliasEnv directSym = .ok directSym ∧
    resolveSymbol sampleAliasEnv aliasNoDeclSym = .ok aliasNoDeclSym ∧
    (∃ a b, getResolvedSymbols sampleAliasEnv [directSym, aliasRenamedSym] =
      .error (.AliasRenamed a b)) ∧
    resolveSymbol sampleAliasEnv aliasSameSym =
      .ok ⟨"Foo", false, some sampleDecl, none⟩ := by
  refine ⟨?_, ?_, ?_, ?_⟩
  · exact (c2_resolveExports_alias_behaviour sampleAliasEnv directSym).1 rfl
  · exact (c2_resolveExports_alias_behaviour sampleAliasEnv aliasNoDeclSym).2.1 rfl rfl rfl
  · exact ((c2_resolveExports_alias_behaviour sampleAliasEnv aliasRenamedSym).2.2.1 rfl
      (Or.inl (by simp [sampleAliasEnv, aliasRenamedSym]))
      (by simp [sampleAliasEnv, aliasRenamedSym])).2
      [directSym, aliasRenamedSym] (by simp)
  · exact (c2_resolveExports_alias_behaviour sampleAliasEnv aliasSameSym).2.2.2 rfl
      (Or.inl (by simp [sampleAliasEnv, aliasSameSym]))
      (by simp [sampleAliasEnv, aliasSameSym])

/-! ### Claim C4: name-sorted output order -/

theorem symbolLe_iff {a b : Symbol} :
    (symbolCompareFunction a b ≤ 0) ↔
      (a.name = b.name ∨ jsLtChars a.name.data b.name.data = true) := by
  unfold symbolCompareFunction jsLocaleCompare
  split
  · rename_i h
    simp [h]
  · rename_i h
    split
    · rename_i hlt
      simp [h, hlt]
    · rename_i hlt
      constructor
      · intro hc
        omega
      · intro hc
        rcases hc with hc | hc
        · exact absurd hc h
        · exact absurd hc hlt

theorem symbolCompare_eq_zero_iff {a b : Symbol} :
    symbolCompareFunction a b = 0 ↔ a.name = b.name := by
  unfold symbolCompareFunction jsLocaleCompare
  split
  · rename_i h
    simp [h]
  · rename_i h
    split
    · simp [h]
    · simp [h]

theorem stringData_inj {a b : String} (h : a.data = b.data) : a = b :=
  String.ext h

theorem symbolLe_trans {a b c : Symbol}
    (h1 : symbolCompareFunction a b ≤ 0) (h2 : symbolCompareFunction b c ≤ 0) :
    symbolCompareFunction a c ≤ 0 := by
  rw [symbolLe_iff] at h1 h2 ⊢
  rcases h1 with h1 | h1
  · rcases h2 with h2 | h2
    · exact Or.inl (h1.trans h2)
    · refine Or.inr ?_
      rw [h1]
      exact h2
  · rcases h2 with h2 | h2
    · refine Or.inr ?_
      rw [← h2]
      exact h1
    · exact Or.inr (jsLtChars_trans h1 h2)

theorem symbolLe_total (a b : Symbol) :
    symbolCompareFunction a b ≤ 0 ∨ symbolCompareFunction b a ≤ 0 := by
  by_cases h : a.name = b.name
  · exact Or.inl (symbolLe_iff.mpr (Or.inl h))
  · have hd : a.name.data ≠ b.name.data := fun hd => h (stringData_inj hd)
    rcases jsLtChars_connex hd with hlt | hlt
    · exact Or.inl (symbolLe_iff.mpr (Or.inr hlt))
    · exact Or.inr (symbolLe_iff.mpr (Or.inr hlt))

theorem symbolLe_antisymm_names {a b : Symbol}
    (h1 : symbolCompareFunction a b ≤ 0) (h2 : symbolCompareFunction b a ≤ 0) :
    a.name = b.name := by
  rw [symbolLe_iff] at h1 h2
  rcases h1 with h1 | h1
  · exact h1
  · rcases h2 with h2 | h2
    · exact h2.symm
    · have := jsLtChars_asymm h1
      rw [this] at h2
      cases h2

/-- C4: the symbol sort used by the assembler puts the entries in strict
ascending name order, and (for duplicate-free names) the sorted order is a
pure function of the set of symbols: sorting any permutation of the list
gives the same sorted list, hence assembly produces identical output. -/
theorem c4_output_name_sorted (l l' : List Symbol)
    (hnd : (l.map Symbol.name).Nodup) (hperm : List.Perm l' l) :
    sortSymbols l' = sortSymbols l ∧
    List.Pairwise (fun a b => jsLocaleCompare a.name b.name < 0) (sortSymbols l) ∧
    ∀ options : SerializationOptions,
      assembleLoop options [] (sortSymbols l') = assembleLoop options [] (sortSymbols l) := by
  have hinj : ∀ x ∈ l, ∀ y ∈ l, x.name = y.name → x = y := by
    intro x hx y hy hxy
    exact List.inj_on_of_nodup_map hnd hx hy hxy
  have hsorted : ∀ m : List Symbol,
      (jsSortBy (fun a b => decide (symbolCompareFunction a b ≤ 0)) m).Pairwise
        (fun x y => decide (symbolCompareFunction x y ≤ 0) = true) := by
    intro m
    refine pairwise_jsSortBy ?_ ?_
    · intro x _ y _ z _ hxy hyz
      simp only [decide_eq_true_eq] at hxy hyz ⊢
      exact symbolLe_trans hxy hyz
    · intro x _ y _
      simp only [decide_eq_true_eq]
      exact symbolLe_total x y
  have heq : sortSymbols l' = sortSymbols l := by
    unfold sortSymbols
    refine eq_of_perm_of_pairwise ?_ (hsorted l') (hsorted l) ?_
    · exact (jsSortBy_perm _ l').trans (hperm.trans (jsSortBy_perm _ l).symm)
    · intro x hx y hy hxy hyx
      simp only [decide_eq_true_eq] at hxy hyx
      have hx' : x ∈ l := hperm.subset ((mem_jsSortBy).mp hx)
      have hy' : y ∈ l := hperm.subset ((mem_jsSortBy).mp hy)
      exact hinj x hx' y hy' (symbolLe_antisymm_names hxy hyx)
  refine ⟨heq, ?_, fun options => by rw [heq]⟩
  have hperm₂ : List.Perm (sortSymbols l) l := jsSortBy_perm _ l
  have hnd₂ : ((sortSymbols l).map Symbol.name).Nodup :=
    ((hperm₂.map Symbol.name).nodup_iff).mpr hnd
  have hne : (sortSymbols l).Pairwise (fun a b => a.name ≠ b.name) :=
    (List.pairwise_map).mp hnd₂
  have hle : (sortSymbols l).Pairwise
      (fun x y => decide (symbolCompareFunction x y ≤ 0) = true) := hsorted l
  refine (hle.and hne).imp ?_
  intro a b hab
  rcases hab with ⟨hab1, hab2⟩
  simp only [decide_eq_true_eq] at hab1
  have hzero : symbolCompareFunction a b ≠ 0 :=
    fun hz => hab2 (symbolCompare_eq_zero_iff.mp hz)
  unfold symbolCompareFunction at hab1 hzero
  omega

/-- Symbols used by the C4 witness (declared out of name order). -/
def symA : Symbol := ⟨"Alpha", false, some sampleDecl, none⟩

def symB : Symbol := ⟨"Beta", false, some sampleDecl, none⟩

def symC : Symbol := ⟨"Gamma", false, some sampleDecl, none⟩

theorem c4_output_name_sorted_witness :
    sortSymbols [symC, symA, symB] = sortSymbols [symA, symB, symC] ∧
    List.Pairwise (fun a b => jsLocaleCompare a.name b.name < 0)
      (sortSymbols [symA, symB, symC]) := by
  have hperm : List.Perm [symC, symA, symB] [symA, symB, symC] :=
    (List.Perm.swap symA symC [symB]).trans ((List.Perm.swap symB symC []).cons symA)
  have h := c4_output_name_sorted [symA, symB, symC] [symC, symA, symB]
    (by simp [symA, symB, symC]) hperm
  exact ⟨h.1, h.2.1⟩

/-! ### Claim C8: entry separation and blank-line stripping -/

/-- The contribution of one symbol to the assembled output: `none` when
the symbol is skipped (strip pattern, missing declaration, or no enclosing
export statement), otherwise the blank-line-stripped sanitized text of its
export statement. -/
def symbolEntry (options : SerializationOptions) (symbol : Symbol) :
    Except SerializerError (Option (List Char)) :=
  if stripMatches options symbol.name then .ok none
  else
    match declOf symbol with
    | none => .ok none
    | some decl =>
      let w := walkToExport decl.node decl.ancestors
      if w.1.flags.isExport then
        (getSanitizedText decl.sourceFile options w.2 w.1).map
          (fun t => some (stripEmptyLines t))
      else .ok none

/-- The per-symbol entries of a symbol list, in order. -/
def symbolEntries (options : SerializationOptions) :
    List Symbol → Except SerializerError (List (List Char))
  | [] => .ok []
  | s :: rest => do
    let e ← symbolEntry options s
    let es ← symbolEntries options rest
    .ok (match e with | some t => t :: es | none => es)

/-- Joining entries: every entry is terminated by a newline, and one extra
newline — exactly one blank line — is placed before each entry after the
first.  No other separator text occurs. -/
def joinEntries : List (List Char) → List Char
  | [] => []
  | e :: rest =>
    e ++ (if rest.isEmpty then ['\n'] else ['\n', '\n'] ++ joinEntries rest)

theorem joinEntries_ne_nil (e : List Char) (rest : List (List Char)) :
    joinEntries (e :: rest) ≠ [] := by
  unfold joinEntries
  split
  · simp
  · simp

theorem joinEntries_append_singleton (es : List (List Char)) (e : List Char) :
    joinEntries (es ++ [e]) =
      (if joinEntries es = [] then joinEntries es else joinEntries es ++ ['\n'])
        ++ e ++ ['\n'] := by
  induction es with
  | nil => simp [joinEntries]
  | cons x xs ih =>
    have hx : joinEntries (x :: xs) ≠ [] := joinEntries_ne_nil x xs
    rw [if_neg hx]
    cases xs with
    | nil => simp [joinEntries]
    | cons y ys =>
      have hy : joinEntries (y :: ys) ≠ [] := joinEntries_ne_nil y ys
      calc joinEntries ((x :: y :: ys) ++ [e])
          = x ++ (['\n', '\n'] ++ joinEntries ((y :: ys) ++ [e])) := by
            simp [joinEntries]
        _ = x ++ (['\n', '\n'] ++ (joinEntries (y :: ys) ++ ['\n'] ++ e ++ ['\n'])) := by
            rw [ih, if_neg hy]
        _ = (joinEntries (x :: y :: ys) ++ ['\n']) ++ e ++ ['\n'] := by
            simp [joinEntries]

theorem assembleLoop_eq_entries_aux (options : SerializationOptions) :
    ∀ (symbols : List Symbol) (es0 : List (List Char)),
    assembleLoop options (joinEntries es0) symbols =
      (symbolEntries options symbols).map (fun es => joinEntries (es0 ++ es))
  | [], es0 => by
    simp [assembleLoop, symbolEntries, Except.map]
  | s :: rest, es0 => by
    rw [assembleLoop, symbolEntries]
    by_cases hstrip : stripMatches options s.name = true
    · rw [if_pos hstrip]
      rw [symbolEntry, if_pos hstrip]
      rw [assembleLoop_eq_entries_aux options rest es0]
      cases symbolEntries options rest with
      | error e => rfl
      | ok es => rfl
    · rw [if_neg hstrip, symbolEntry, if_neg hstrip]
      cases hdecl : declOf s with
      | none =>
        rw [assembleLoop_eq_entries_aux options rest es0]
        cases symbolEntries options rest with
        | error e => rfl
        | ok es => rfl
      | some decl =>
        dsimp only
        by_cases hexp : (walkToExport decl.node decl.ancestors).1.flags.isExport = true
        · rw [if_pos hexp, if_pos hexp]
          cases hsan : getSanitizedText decl.sourceFile options
              (walkToExport decl.node decl.ancestors).2
              (walkToExport decl.node decl.ancestors).1 with
          | error e => simp [hsan, Except.map]
          | ok t =>
            simp only [hsan, Except.map, ok_bind]
            have hout : (if joinEntries es0 = [] then joinEntries es0
                  else joinEntries es0 ++ ['\n']) ++ stripEmptyLines t ++ ['\n'] =
                joinEntries (es0 ++ [stripEmptyLines t]) :=
              (joinEntries_append_singleton es0 (stripEmptyLines t)).symm
            rw [show ((if joinEntries es0 = [] then joinEntries es0
                  else joinEntries es0 ++ ['\n']) ++ stripEmptyLines t ++ ['\n'])
                = joinEntries (es0 ++ [stripEmptyLines t]) from hout]
            rw [assembleLoop_eq_entries_aux options rest (es0 ++ [stripEmptyLines t])]
            cases symbolEntries options rest with
            | error e => rfl
            | ok es => simp [Except.map]
        · rw [if_neg hexp, if_neg hexp]
          rw [assembleLoop_eq_entries_aux options rest es0]
          cases symbolEntries options rest with
          | error e => rfl
          | ok es => rfl

/-- C8: the assembled output is exactly the per-symbol entries — each the
sanitized text with every zero-length line removed (`stripEmptyLines`
composed with `getSanitizedText` inside `symbolEntry`) — joined so that
every entry ends with a newline and exactly one blank line precedes each
entry after the first, with no other separator text (`joinEntries`). -/
theorem c8_output_assembly (options : SerializationOptions) (symbols : List Symbol) :
    assembleLoop options [] symbols =
      (symbolEntries options symbols).map joinEntries ∧
    ∀ t, stripEmptyLines t =
      List.intercalate ['\n'] ((splitLines t).filter (fun x => x.length ≠ 0)) := by
  constructor
  · have h := assembleLoop_eq_entries_aux options symbols []
    rw [show joinEntries [] = [] from rfl] at h
    rw [h]
    cases symbolEntries options symbols with
    | error e => rfl
    | ok es => simp
  · intro t
    rfl

/-! ### Claim C6: leaf text and leading-comment exclusion -/

theorem commentTail_step_ge (t : Nat) (r : CommentRange) :
    t ≤ (if t < r.endP then r.endP else t) := by
  split
  · omega
  · omega

theorem commentTail_step_ge_endP (t : Nat) (r : CommentRange) :
    r.endP ≤ (if t < r.endP then r.endP else t) := by
  split
  · omega
  · omega

theorem foldl_commentTail_ge :
    ∀ (lc : List CommentRange) (t : Nat),
    t ≤ lc.foldl (fun t r => if t < r.endP then r.endP else t) t
  | [], _ => le_refl _
  | r :: rest, t => by
    calc t ≤ (if t < r.endP then r.endP else t) := commentTail_step_ge t r
    _ ≤ _ := foldl_commentTail_ge rest _

theorem foldl_commentTail_ge_mem :
    ∀ {lc : List CommentRange} {r : CommentRange} (_ : r ∈ lc) (t : Nat),
    r.endP ≤ lc.foldl (fun t r => if t < r.endP then r.endP else t) t
  | [], _, hmem, _ => absurd hmem (by simp)
  | x :: rest, r, hmem, t => by
    rcases List.mem_cons.mp hmem with rfl | hmem'
    · calc r.endP ≤ (if t < r.endP then r.endP else t) := commentTail_step_ge_endP t r
      _ ≤ _ := foldl_commentTail_ge rest _
    · exact foldl_commentTail_ge_mem hmem' _

/-- C6: a childless (leaf) node sanitizes to the source text between the
furthest end offset of its leading-comment ranges (its nominal start when
there are none) and its end offset; every leading-comment range therefore
ends at or before the start of the returned span, so no leading comment
text reaches the output. -/
theorem c6_leaf_comment_stripping (sf : SourceFile) (options : SerializationOptions)
    (pk : Option SyntaxKind) (node : Node)
    (hpriv : node.flags.isPrivate = false) (hleaf : node.children = []) :
    getSanitizedText sf options pk node =
      .ok (substringOf sf.text (commentTail node) node.endP) ∧
    (∀ r ∈ node.leadingComments, r.endP ≤ commentTail node) ∧
    node.pos ≤ commentTail node ∧
    (node.leadingComments = [] → commentTail node = node.pos) := by
  have hq : qualifierFailure sf options node =
      none := qualifierFailure_of_none (getFirstQualifier_of_leaf hleaf)
  refine ⟨getSanitizedText_leaf sf options pk hpriv hq hleaf, ?_, ?_, ?_⟩
  · intro r hr
    exact foldl_commentTail_ge_mem hr node.pos
  · exact foldl_commentTail_ge node.leadingComments node.pos
  · intro h
    unfold commentTail
    rw [h]
    rfl

/-- A leaf preceded by a block comment: source text `/*c*/ab`, with the
front end reporting the comment range `[0, 5)` at the leaf's nominal
start 0. -/
def commentSF : SourceFile :=
  ⟨"comment.d.ts", ['/', '*', 'c', '*', '/', 'a', 'b']⟩

def commentLeaf : Node :=
  .mk .Identifier noFlags 0 5 7 none [⟨0, 5⟩] []

theorem c6_leaf_comment_stripping_witness :
    getSanitizedText commentSF emptyOptions none commentLeaf = .ok ['a', 'b'] ∧
    ∀ r ∈ commentLeaf.leadingComments, r.endP ≤ commentTail commentLeaf := by
  have h := c6_leaf_comment_stripping commentSF emptyOptions none commentLeaf rfl rfl
  refine ⟨?_, h.2.1⟩
  rw [h.1]
  rfl

/-! ### Claim C10: absent whitelist rejects every reached qualifier -/

theorem qualifierFailure_form {sf : SourceFile} {options : SerializationOptions}
    {node : Node} {e : SerializerError}
    (h : qualifierFailure sf options node = some e) :
    ∃ t f l c, e = .UnlistedModuleIdentifier t f l c := by
  unfold qualifierFailure at h
  split at h
  · cases h
  · split at h
    · cases h
      exact ⟨_, _, _, _, rfl⟩
    · cases h

/-- Every error thrown inside the sanitizing traversal is an
`UnlistedModuleIdentifier` (the only `throw` in `getSanitizedText`). -/
theorem getSanitizedText_error_form (sf : SourceFile) (options : SerializationOptions) :
    ∀ node : Node, ∀ (pk : Option SyntaxKind) (e : SerializerError),
    getSanitizedText sf options pk node = .error e →
    ∃ t f l c, e = .UnlistedModuleIdentifier t f l c := by
  intro node
  induction node using Node.inductionOn with
  | _ k f p s ep ns lc cs ih =>
    intro pk e h
    set n := Node.mk k f p s ep ns lc cs with hn
    by_cases hp : n.flags.isPrivate = true
    · rw [getSanitizedText_private sf options pk hp] at h
      cases h
    · rw [Bool.not_eq_true] at hp
      cases hq : qualifierFailure sf options n with
      | some e' =>
        rw [getSanitizedText_error sf options pk hp hq] at h
        cases h
        exact qualifierFailure_form hq
      | none =>
        cases hcs : n.children with
        | nil =>
          rw [getSanitizedText_leaf sf options pk hp hq hcs] at h
          cases h
        | cons c₀ cs₀ =>
          rw [getSanitizedText_branch sf options pk hp hq hcs] at h
          have hmem : ∀ c ∈ (if memberListSortable pk n then
              jsSortBy (fun a b => memberCompare sf.text a b ≤ 0) (c₀ :: cs₀)
            else c₀ :: cs₀), c ∈ cs := by
            intro c hc
            have : c ∈ c₀ :: cs₀ := by
              by_cases hs : memberListSortable pk n
              · rw [if_pos hs] at hc
                exact (mem_jsSortBy).mp hc
              · rw [if_neg hs] at hc
                exact hc
            rw [← hcs] at this
            simpa [hn] using this
          revert h
          generalize (if memberListSortable pk n then
              jsSortBy (fun a b => memberCompare sf.text a b ≤ 0) (c₀ :: cs₀)
            else c₀ :: cs₀) = l at hmem
          induction l with
          | nil =>
            intro h
            rw [getSanitizedTextList_nil] at h
            cases h
          | cons x xs ihl =>
            intro h
            rw [getSanitizedTextList_cons] at h
            cases hx : getSanitizedText sf options (some n.kind) x with
            | error e₀ =>
              rw [hx] at h
              simp only [error_bind] at h
              injection h with he
              subst he
              exact ih x (hmem x (by simp)) (some n.kind) _ hx
            | ok t =>
              rw [hx] at h
              simp only [ok_bind] at h
              cases hxs : getSanitizedTextList sf options (some n.kind) xs with
              | error e₁ =>
                rw [hxs] at h
                simp only [error_bind] at h
                injection h with he
                subst he
                exact ihl (fun c hc => hmem c (by simp [hc])) hxs
              | ok ts =>
                rw [hxs] at h
                simp only [ok_bind] at h
                cases h

mutual

/-- Whether an error is inevitable on the node itself: the sanitizing
traversal reaches a dotted reference with an extractable qualifier along a
path with no private flag. -/
def reachesQualifier (n : Node) : Bool :=
  (!n.flags.isPrivate) &&
    ((getFirstQualifier n).isSome || reachesQualifierList n.children)
termination_by sizeOf n
decreasing_by
  have := Node.sizeOf_children_lt n
  omega

def reachesQualifierList : List Node → Bool
  | [] => false
  | c :: cs => reachesQualifier c || reachesQualifierList cs
termination_by l => sizeOf l
decreasing_by
  all_goals simp_wf
  all_goals omega

end

theorem getSanitizedTextList_error_of_mem {sf : SourceFile}
    {options : SerializationOptions} {pk : Option SyntaxKind} :
    ∀ {l : List Node} {c : Node} {e : SerializerError}, c ∈ l →
    getSanitizedText sf options pk c = .error e →
    ∃ e', getSanitizedTextList sf options pk l = .error e'
  | [], _, _, hmem, _ => absurd hmem (by simp)
  | x :: rest, c, e, hmem, herr => by
    rw [getSanitizedTextList_cons]
    cases hx : getSanitizedText sf options pk x with
    | error e₀ => exact ⟨e₀, by simp⟩
    | ok t =>
      rcases List.mem_cons.mp hmem with rfl | hmem'
      · rw [hx] at herr
        cases herr
      · rcases getSanitizedTextList_error_of_mem hmem' herr with ⟨e', htail⟩
        rw [htail]
        exact ⟨e', by simp⟩

/-- C10: with `allowModuleIdentifiers` omitted, no qualifier is permitted:
whenever the traversal can reach (through non-private nodes) a
dotted/qualified reference with an extractable leftmost identifier,
sanitization fails, and the failure is an `UnlistedModuleIdentifier`. -/
theorem c10_absent_allowlist_rejects_qualifiers (sf : SourceFile)
    (options : SerializationOptions) (pk : Option SyntaxKind) (node : Node)
    (hnone : options.allowModuleIdentifiers = none)
    (hreach : reachesQualifier node = true) :
    ∃ t f l c, getSanitizedText sf options pk node =
      .error (.UnlistedModuleIdentifier t f l c) := by
  induction node using Node.inductionOn generalizing pk with
  | _ k f p s ep ns lc cs ih =>
    set n := Node.mk k f p s ep ns lc cs with hn
    rw [reachesQualifier] at hreach
    rcases Bool.and_eq_true_iff.mp hreach with ⟨hp', hrest⟩
    have hp : n.flags.isPrivate = false := by
      simpa using hp'
    rcases Bool.or_eq_true_iff.mp hrest with hq | hlist
    · rcases Option.isSome_iff_exists.mp hq with ⟨q, hq'⟩
      have hna : qualifierNotAllowed options (identifierText sf q) = true := by
        unfold qualifierNotAllowed
        rw [hnone]
      have hfail := qualifierFailure_eq_some hq' hna
      exact ⟨_, _, _, _, getSanitizedText_error sf options pk hp hfail⟩
    · cases hqf : qualifierFailure sf options n with
      | some e' =>
        rcases qualifierFailure_form hqf with ⟨t, f', l', c', rfl⟩
        exact ⟨t, f', l', c', getSanitizedText_error sf options pk hp hqf⟩
      | none =>
        have hex : ∃ c ∈ n.children, reachesQualifier c = true := by
          have : ∀ m : List Node, reachesQualifierList m = true →
              ∃ c ∈ m, reachesQualifier c = true := by
            intro m
            induction m with
            | nil =>
              intro hcontr
              rw [reachesQualifierList] at hcontr
              cases hcontr
            | cons x xs ihm =>
              intro hx
              rw [reachesQualifierList] at hx
              rcases Bool.or_eq_true_iff.mp hx with h | h
              · exact ⟨x, by simp, h⟩
              · rcases ihm h with ⟨c, hc1, hc2⟩
                exact ⟨c, by simp [hc1], hc2⟩
          exact this n.children hlist
        rcases hex with ⟨c, hcmem, hcreach⟩
        have hcs : n.children = cs := by simp [hn]
        cases hcase : cs with
        | nil =>
          rw [hcs, hcase] at hcmem
          cases hcmem
        | cons c₀ cs₀ =>
          have hchil : n.children = c₀ :: cs₀ := by rw [hcs, hcase]
          rcases ih c (by rw [← hcs]; exact hcmem) (some n.kind) hcreach with ⟨t, f', l', c'', hcerr⟩
          have hcl : c ∈ (if memberListSortable pk n then
              jsSortBy (fun a b => memberCompare sf.text a b ≤ 0) (c₀ :: cs₀)
            else c₀ :: cs₀) := by
            by_cases hs : memberListSortable pk n
            · rw [if_pos hs]
              rw [mem_jsSortBy, ← hchil]
              exact hcmem
            · rw [if_neg hs, ← hchil]
              exact hcmem
          rcases getSanitizedTextList_error_of_mem hcl hcerr with ⟨e', hlist'⟩
          have hnode : getSanitizedText sf options pk n = .error e' := by
            rw [getSanitizedText_branch sf options pk hp hqf hchil]
            exact hlist'
          rcases getSanitizedText_error_form sf options n pk e' hnode with ⟨t₁, f₁, l₁, c₁, rfl⟩
          exact ⟨t₁, f₁, l₁, c₁, hnode⟩

/-- Source text `ns.B` with a dotted reference `ns.B` for the qualifier
witnesses. -/
def nsSF : SourceFile :=
  ⟨"ns.d.ts", ['n', 's', '.', 'B']⟩

def nsIdent : Node :=
  .mk .Identifier noFlags 0 0 2 none [] []

def nsDot : Node :=
  .mk .DotToken noFlags 2 2 3 none [] []

def nsProp : Node :=
  .mk .Identifier noFlags 3 3 4 none [] []

def nsRef : Node :=
  .mk .PropertyAccessExpression noFlags 0 0 4 none [] [nsIdent, nsDot, nsProp]

theorem getFirstQualifier_nsRef : getFirstQualifier nsRef = some nsIdent := by
  show chaseExpression nsRef = some nsIdent
  rw [chaseExpression]
  rfl

theorem reachesQualifier_nsRef : reachesQualifier nsRef = true := by
  rw [reachesQualifier, getFirstQualifier_nsRef]
  rfl

theorem c10_absent_allowlist_rejects_qualifiers_witness :
    emptyOptions.allowModuleIdentifiers = none ∧
    reachesQualifier nsRef = true ∧
    ∃ t f l c, getSanitizedText nsSF emptyOptions none nsRef =
      .error (.UnlistedModuleIdentifier t f l c) :=
  ⟨rfl, reachesQualifier_nsRef,
    c10_absent_allowlist_rejects_qualifiers nsSF emptyOptions none nsRef rfl
      reachesQualifier_nsRef⟩

/-! ### Claim C3: qualifier whitelisting and verbatim reproduction -/

theorem drop_take_append_drop :
    ∀ (s : List α) (a m : Nat), a ≤ m →
    (s.take m).drop a ++ s.drop m = s.drop a
  | [], _, _, _ => by simp
  | x :: xs, a, 0, h => by
    have : a = 0 := Nat.le_zero.mp h
    simp [this]
  | x :: xs, 0, m + 1, _ => by
    simp
  | x :: xs, a + 1, m + 1, h => by
    simp only [List.take_succ_cons, List.drop_succ_cons]
    exact drop_take_append_drop xs a m (Nat.le_of_succ_le_succ h)

theorem substringOf_append (t : List Char) {a m b : Nat}
    (h1 : a ≤ m) (h2 : m ≤ b) :
    substringOf t a m ++ substringOf t m b = substringOf t a b := by
  unfold substringOf
  have htake : t.take m = (t.take b).take m := by
    rw [List.take_take]
    rw [Nat.min_eq_left h2]
  rw [htake]
  exact drop_take_append_drop (t.take b) a m h1

theorem substringOf_self (t : List Char) (a : Nat) : substringOf t a a = [] := by
  unfold substringOf
  refine List.drop_eq_nil_of_le ?_
  simp [Nat.min_le_left]

/-- Tiling of a span by consecutive child spans: each child starts where
the previous one ended (the first at `a`), spans are ordered, and the last
child ends at `b`. -/
def spanChain : Nat → List Node → Nat → Bool
  | a, [], b => decide (a = b)
  | a, c :: cs, b =>
    decide (c.pos = a) && decide (c.pos ≤ c.endP) && spanChain c.endP cs b

theorem spanChain_le : ∀ {a : Nat} {l : List Node} {b : Nat},
    spanChain a l b = true → a ≤ b
  | a, [], b, h => by
    unfold spanChain at h
    simp at h
    omega
  | a, c :: cs, b, h => by
    unfold spanChain at h
    simp only [Bool.and_eq_true, decide_eq_true_eq] at h
    rcases h with ⟨⟨h1, h2⟩, h3⟩
    have := spanChain_le h3
    omega

mutual

/-- Sufficient conditions for a subtree to be reproduced verbatim by the
sanitizer: no private flag, every qualifier check passes, no leading
comments on leaves, children exactly tile the node's span, and no child
list triggers the member reordering. -/
def rendersVerbatim (sf : SourceFile) (options : SerializationOptions) (n : Node) : Bool :=
  (!n.flags.isPrivate) && (qualifierFailure sf options n).isNone &&
    (match hc : n.children with
     | [] => n.leadingComments.isEmpty
     | c :: cs =>
       (!(decide (n.kind = .SyntaxList) &&
          (c :: cs).all (fun m => (memberDeclarationOrder m.kind).isSome))) &&
       spanChain n.pos (c :: cs) n.endP &&
       rendersVerbatimList sf options (c :: cs))
termination_by sizeOf n
decreasing_by
  have := Node.sizeOf_children_lt n
  rw [hc] at this
  exact this

def rendersVerbatimList (sf : SourceFile) (options : SerializationOptions) :
    List Node → Bool
  | [] => true
  | c :: cs => rendersVerbatim sf options c && rendersVerbatimList sf options cs
termination_by l => sizeOf l
decreasing_by
  all_goals simp_wf
  all_goals omega

end

theorem rendersVerbatimList_mem {sf : SourceFile} {options : SerializationOptions} :
    ∀ {l : List Node}, rendersVerbatimList sf options l = true →
    ∀ c ∈ l, rendersVerbatim sf options c = true
  | [], _, c, hc => absurd hc (by simp)
  | x :: xs, h, c, hc => by
    rw [rendersVerbatimList] at h
    rcases Bool.and_eq_true_iff.mp h with ⟨h1, h2⟩
    rcases List.mem_cons.mp hc with rfl | hc'
    · exact h1
    · exact rendersVerbatimList_mem h2 c hc'

/-- A verbatim-clean subtree sanitizes to exactly its own source span. -/
theorem sanitize_verbatim (sf : SourceFile) (options : SerializationOptions) :
    ∀ (node : Node) (pk : Option SyntaxKind),
    rendersVerbatim sf options node = true →
    getSanitizedText sf options pk node = .ok (substringOf sf.text node.pos node.endP) := by
  intro node
  induction node using Node.inductionOn with
  | _ k f p s ep ns lc cs ih =>
    intro pk hv
    set n := Node.mk k f p s ep ns lc cs with hn
    rw [rendersVerbatim] at hv
    rcases Bool.and_eq_true_iff.mp hv with ⟨hv1, hv2⟩
    rcases Bool.and_eq_true_iff.mp hv1 with ⟨hp', hqf'⟩
    have hp : n.flags.isPrivate = false := by simpa using hp'
    have hqf : qualifierFailure sf options n = none := by
      cases hq : qualifierFailure sf options n
      · rfl
      · rw [hq] at hqf'
        cases hqf'
    cases hcs : n.children with
    | nil =>
      rw [getSanitizedText_leaf sf options pk hp hqf hcs]
      have hlcnil : n.leadingComments = [] := by
        rw [hcs] at hv2
        simpa using hv2
      have : commentTail n = n.pos := by
        unfold commentTail
        rw [hlcnil]
        rfl
      rw [this]
    | cons c₀ cs₀ =>
      rw [getSanitizedText_branch sf options pk hp hqf hcs]
      rw [hcs] at hv2
      rcases Bool.and_eq_true_iff.mp hv2 with ⟨hv3, hvl⟩
      rcases Bool.and_eq_true_iff.mp hv3 with ⟨hnosort, hchain⟩
      have hnosort' : ¬ memberListSortable pk n := by
        intro hms
        rcases hms with ⟨hk, _, hall⟩
        have h1 : decide (n.kind = SyntaxKind.SyntaxList) = true := by
          simp [hk]
        have h2 : (c₀ :: cs₀).all (fun m => (memberDeclarationOrder m.kind).isSome) = true := by
          rw [List.all_eq_true]
          intro m hm
          exact hall m (by rw [hcs]; exact hm)
        rw [h1, h2] at hnosort
        cases hnosort
      rw [if_neg hnosort']
      have hmemcs : ∀ c ∈ c₀ :: cs₀, c ∈ cs := by
        intro c hc
        have : c ∈ n.children := by rw [hcs]; exact hc
        simpa [hn] using this
      have main : ∀ (l : List Node), (∀ c ∈ l, c ∈ cs) →
          ∀ a, spanChain a l n.endP = true →
          rendersVerbatimList sf options l = true →
          getSanitizedTextList sf options (some n.kind) l =
            .ok (substringOf sf.text a n.endP) := by
        intro l
        induction l with
        | nil =>
          intro _ a hch _
          unfold spanChain at hch
          simp at hch
          rw [getSanitizedTextList_nil, hch, substringOf_self]
        | cons x xs ihl =>
          intro hsub a hch hvl'
          unfold spanChain at hch
          simp only [Bool.and_eq_true, decide_eq_true_eq] at hch
          rcases hch with ⟨⟨hx1, hx2⟩, hx3⟩
          rw [rendersVerbatimList] at hvl'
          rcases Bool.and_eq_true_iff.mp hvl' with ⟨hvx, hvxs⟩
          have hxres := ih x (hsub x (by simp)) (some n.kind) hvx
          have htail := ihl (fun c hc => hsub c (by simp [hc])) x.endP hx3 hvxs
          rw [getSanitizedTextList_cons, hxres, htail]
          simp only [ok_bind]
          have hle1 : a ≤ x.endP := by omega
          have hle2 : x.endP ≤ n.endP := spanChain_le hx3
          rw [hx1] at hxres ⊢
          congr 1
          rw [← substringOf_append sf.text (by omega : a ≤ x.endP) hle2]
      exact main (c₀ :: cs₀) hmemcs n.pos hchain hvl

/-- C3: on a non-private dotted/qualified reference with extractable
leftmost identifier `q`: if `q`'s text is not in `allowModuleIdentifiers`,
sanitization fails with `UnlistedModuleIdentifier` carrying the
qualifier's text, file and 1-based line/column; if it is allowed (and the
subtree is otherwise clean: no private members, no comments, spans tiled,
no reordering — always the case for a parsed dotted reference), the
reference's own source text is reproduced verbatim. -/
theorem c3_qualifier_whitelisting (sf : SourceFile) (options : SerializationOptions)
    (pk : Option SyntaxKind) (node q : Node)
    (hpriv : node.flags.isPrivate = false)
    (hq : getFirstQualifier node = some q) :
    (qualifierNotAllowed options (identifierText sf q) = true →
      getSanitizedText sf options pk node = .error
        (.UnlistedModuleIdentifier (identifierText sf q) sf.fileName
          ((lineAndCharacterOfPosition sf.text q.strt).1 + 1)
          ((lineAndCharacterOfPosition sf.text q.strt).2 + 1))) ∧
    (rendersVerbatim sf options node = true →
      getSanitizedText sf options pk node =
        .ok (substringOf sf.text node.pos node.endP)) := by
  constructor
  · intro hna
    exact getSanitizedText_error sf options pk hpriv (qualifierFailure_eq_some hq hna)
  · intro hv
    exact sanitize_verbatim sf options node pk hv

/-- Options not whitelisting `ns`. -/
def denyNsOptions : SerializationOptions :=
  ⟨none, some ["other"]⟩

/-- Options whitelisting `ns`. -/
def allowNsOptions : SerializationOptions :=
  ⟨none, some ["ns"]⟩

theorem rendersVerbatim_of_leaf (sf : SourceFile) (options : SerializationOptions)
    {n : Node} (hp : n.flags.isPrivate = false)
    (hq : qualifierFailure sf options n = none)
    (hc : n.children = []) (hlc : n.leadingComments = []) :
    rendersVerbatim sf options n = true := by
  rw [rendersVerbatim]
  simp only [hp, hq, Bool.not_false, Option.isNone_none, Bool.true_and]
  split
  · rw [hlc]
    rfl
  · rename_i c cs heq
    rw [hc] at heq
    cases heq

theorem rendersVerbatim_of_children (sf : SourceFile) (options : SerializationOptions)
    {n c₀ : Node} {cs₀ : List Node} (hp : n.flags.isPrivate = false)
    (hq : qualifierFailure sf options n = none)
    (hc : n.children = c₀ :: cs₀)
    (hrest : ((!(decide (n.kind = .SyntaxList) &&
        (c₀ :: cs₀).all (fun m => (memberDeclarationOrder m.kind).isSome))) &&
      spanChain n.pos (c₀ :: cs₀) n.endP &&
      rendersVerbatimList sf options (c₀ :: cs₀)) = true) :
    rendersVerbatim sf options n = true := by
  rw [rendersVerbatim]
  simp only [hp, hq, Bool.not_false, Option.isNone_none, Bool.true_and]
  split
  · rename_i heq
    rw [hc] at heq
    cases heq
  · rename_i c' cs' heq
    rw [hc] at heq
    injection heq with e1 e2
    subst e1
    subst e2
    exact hrest

theorem rendersVerbatim_nsRef :
    rendersVerbatim nsSF allowNsOptions nsRef = true := by
  have hIdent : rendersVerbatim nsSF allowNsOptions nsIdent = true :=
    rendersVerbatim_of_leaf nsSF allowNsOptions rfl
      (qualifierFailure_of_none (getFirstQualifier_of_leaf rfl)) rfl rfl
  have hDot : rendersVerbatim nsSF allowNsOptions nsDot = true :=
    rendersVerbatim_of_leaf nsSF allowNsOptions rfl
      (qualifierFailure_of_none (getFirstQualifier_of_leaf rfl)) rfl rfl
  have hProp : rendersVerbatim nsSF allowNsOptions nsProp = true :=
    rendersVerbatim_of_leaf nsSF allowNsOptions rfl
      (qualifierFailure_of_none (getFirstQualifier_of_leaf rfl)) rfl rfl
  refine rendersVerbatim_of_children nsSF allowNsOptions rfl
    (qualifierFailure_eq_none getFirstQualifier_nsRef (by rfl)) rfl ?_
  simp only [rendersVerbatimList, hIdent, hDot, hProp]
  rfl

theorem c3_qualifier_whitelisting_witness :
    getSanitizedText nsSF denyNsOptions none nsRef =
      .error (.UnlistedModuleIdentifier "ns" "ns.d.ts" 1 1) ∧
    getSanitizedText nsSF allowNsOptions none nsRef =
      .ok ['n', 's', '.', 'B'] := by
  have h1 := (c3_qualifier_whitelisting nsSF denyNsOptions none nsRef nsIdent rfl
    getFirstQualifier_nsRef).1 (by rfl)
  have h2 := (c3_qualifier_whitelisting nsSF allowNsOptions none nsRef nsIdent rfl
    getFirstQualifier_nsRef).2 rendersVerbatim_nsRef
  constructor
  · rw [h1]
    rfl
  · rw [h2]
    rfl

/-! ### Claim C1: member reordering -/

theorem compareFunctionNat_le_zero {a b : Nat} :
    compareFunctionNat a b ≤ 0 ↔ a ≤ b := by
  unfold compareFunctionNat
  split
  · rename_i h
    simp [h]
  · rename_i h
    split
    · rename_i h2
      constructor
      · intro hc
        omega
      · intro hc
        omega
    · rename_i h2
      constructor
      · intro _
        omega
      · intro _
        omega

theorem compareFunctionNat_eq_zero {a b : Nat} :
    compareFunctionNat a b = 0 ↔ a = b := by
  unfold compareFunctionNat
  split
  · rename_i h
    simp [h]
  · rename_i h
    split
    · simp [h]
    · simp [h]

theorem compareFunctionText_le_zero {a b : List Char} :
    compareFunctionText a b ≤ 0 ↔ (a = b ∨ jsLtChars a b = true) := by
  unfold compareFunctionText
  split
  · rename_i h
    simp [h]
  · rename_i h
    split
    · rename_i h2
      have h3 : jsLtChars a b = false := jsLtChars_asymm h2
      constructor
      · intro hc
        omega
      · intro hc
        rcases hc with hc | hc
        · exact absurd hc h
        · rw [hc] at h3
          cases h3
    · rename_i h2
      have h3 : jsLtChars a b = true := by
        rcases jsLtChars_connex h with h4 | h4
        · exact h4
        · exact absurd h4 h2
      constructor
      · intro _
        exact Or.inr h3
      · intro _
        omega

theorem compareFunctionText_eq_zero {a b : List Char} :
    compareFunctionText a b = 0 ↔ a = b := by
  unfold compareFunctionText
  split
  · rename_i h
    simp [h]
  · rename_i h
    split
    · simp [h]
    · simp [h]

/-- The rank of an in-table member kind. -/
def rankOf (n : Node) : Nat :=
  (memberDeclarationOrder n.kind).getD 0

/-- The composite member order stated by the specification, amended in its
first component to match the code: NON-static members sort before static
members (the source comments this with "Static after normal"), then the
`memberDeclarationOrder` rank ascending, then the member name text in
case-sensitive lexical order.  Ties leave the relation reflexive, so a
stable sort preserves their original relative order. -/
def specMemberLe (text : List Char) (a b : Node) : Bool :=
  decide (staticValue a < staticValue b) ||
    (decide (staticValue a = staticValue b) &&
      (decide (rankOf a < rankOf b) ||
        (decide (rankOf a = rankOf b) &&
          (jsLtChars (nameOrSelfText text a) (nameOrSelfText text b) ||
            decide (nameOrSelfText text a = nameOrSelfText text b)))))

/-- The member order as the claim literally states it: STATIC members
before non-static members, then rank, then name text. -/
def claimStaticFirstLe (text : List Char) (a b : Node) : Bool :=
  decide (staticValue b < staticValue a) ||
    (decide (staticValue a = staticValue b) &&
      (decide (rankOf a < rankOf b) ||
        (decide (rankOf a = rankOf b) &&
          (jsLtChars (nameOrSelfText text a) (nameOrSelfText text b) ||
            decide (nameOrSelfText text a = nameOrSelfText text b)))))

theorem memberCompare_le_iff (text : List Char) {a b : Node} {ra rb : Nat}
    (ha : memberDeclarationOrder a.kind = some ra)
    (hb : memberDeclarationOrder b.kind = some rb) :
    (memberCompare text a b ≤ 0) ↔ specMemberLe text a b = true := by
  have hra : rankOf a = ra := by
    unfold rankOf
    rw [ha]
    rfl
  have hrb : rankOf b = rb := by
    unfold rankOf
    rw [hb]
    rfl
  unfold memberCompare jsOrInt specMemberLe
  rw [ha, hb, hra, hrb]
  rcases Nat.lt_trichotomy (staticValue a) (staticValue b) with hs | hs | hs
  · have h1 : compareFunctionNat (staticValue a) (staticValue b) = -1 := by
      unfold compareFunctionNat
      rw [if_neg (by omega), if_neg (by omega)]
    have d1 : decide (staticValue a < staticValue b) = true := by
      simp [hs]
    rw [h1]
    simp [d1]
  · have h1 : compareFunctionNat (staticValue a) (staticValue b) = 0 :=
      compareFunctionNat_eq_zero.mpr hs
    have d1 : decide (staticValue a < staticValue b) = false := by
      rw [hs]
      simp
    have d2 : decide (staticValue a = staticValue b) = true := by
      simp [hs]
    rcases Nat.lt_trichotomy ra rb with hr | hr | hr
    · have h2 : compareFunctionRank (some ra) (some rb) = -1 := by
        show compareFunctionNat ra rb = -1
        unfold compareFunctionNat
        rw [if_neg (by omega), if_neg (by omega)]
      have d3 : decide (ra < rb) = true := by
        simp [hr]
      rw [h1, h2]
      simp [d1, d2, d3]
    · have h2 : compareFunctionRank (some ra) (some rb) = 0 := by
        show compareFunctionNat ra rb = 0
        exact compareFunctionNat_eq_zero.mpr hr
      have d3 : decide (ra < rb) = false := by
        rw [hr]
        simp
      have d4 : decide (ra = rb) = true := by
        simp [hr]
      rw [h1, h2]
      simp only [if_pos rfl, ite_true]
      rw [compareFunctionText_le_zero]
      simp only [d1, d2, d3, d4, Bool.false_or, Bool.true_and,
        Bool.or_eq_true, decide_eq_true_eq]
      constructor
      · intro hc
        rcases hc with hc | hc
        · exact Or.inr hc
        · exact Or.inl hc
      · intro hc
        rcases hc with hc | hc
        · exact Or.inr hc
        · exact Or.inl hc
    · have h2 : compareFunctionRank (some ra) (some rb) = 1 := by
        show compareFunctionNat ra rb = 1
        unfold compareFunctionNat
        rw [if_neg (by omega), if_pos (by omega)]
      have d3 : decide (ra < rb) = false := by
        have : ¬ ra < rb := by omega
        simp [this]
      have d4 : decide (ra = rb) = false := by
        have : ¬ ra = rb := by omega
        simp [this]
      rw [h1, h2]
      simp only [if_pos rfl, ite_true, d1, d2, d3, d4, Bool.false_or, Bool.true_and,
        Bool.false_and, Bool.or_false]
      rw [if_neg (by decide)]
      decide
  · have h1 : compareFunctionNat (staticValue a) (staticValue b) = 1 := by
      unfold compareFunctionNat
      rw [if_neg (by omega), if_pos (by omega)]
    have d1 : decide (staticValue a < staticValue b) = false := by
      have : ¬ staticValue a < staticValue b := by omega
      simp [this]
    have d2 : decide (staticValue a = staticValue b) = false := by
      have : ¬ staticValue a = staticValue b := by omega
      simp [this]
    rw [h1]
    simp only [d1, d2, Bool.false_or, Bool.false_and]
    rw [if_neg (show ¬ ((1 : Int) = 0) by decide)]
    rw [if_neg (show ¬ ((1 : Int) = 0) by decide)]
    decide

theorem specMemberLe_trans {text : List Char} {a b c : Node}
    (h1 : specMemberLe text a b = true) (h2 : specMemberLe text b c = true) :
    specMemberLe text a c = true := by
  unfold specMemberLe at h1 h2 ⊢
  simp only [Bool.or_eq_true, Bool.and_eq_true, decide_eq_true_eq] at h1 h2 ⊢
  rcases h1 with h1 | ⟨h1e, h1r⟩
  · rcases h2 with h2 | ⟨h2e, h2r⟩
    · exact Or.inl (by omega)
    · exact Or.inl (by omega)
  · rcases h2 with h2 | ⟨h2e, h2r⟩
    · exact Or.inl (by omega)
    · refine Or.inr ⟨by omega, ?_⟩
      rcases h1r with h1r | ⟨h1re, h1n⟩
      · rcases h2r with h2r | ⟨h2re, h2n⟩
        · exact Or.inl (by omega)
        · exact Or.inl (by omega)
      · rcases h2r with h2r | ⟨h2re, h2n⟩
        · exact Or.inl (by omega)
        · refine Or.inr ⟨by omega, ?_⟩
          rcases h1n with h1n | h1n
          · rcases h2n with h2n | h2n
            · exact Or.inl (jsLtChars_trans h1n h2n)
            · rw [← h2n]
              exact Or.inl h1n
          · rcases h2n with h2n | h2n
            · rw [h1n]
              exact Or.inl h2n
            · rw [h1n, h2n]
              exact Or.inr rfl

theorem specMemberLe_total (text : List Char) (a b : Node) :
    specMemberLe text a b = true ∨ specMemberLe text b a = true := by
  unfold specMemberLe
  simp only [Bool.or_eq_true, Bool.and_eq_true, decide_eq_true_eq]
  rcases Nat.lt_trichotomy (staticValue a) (staticValue b) with h | h | h
  · exact Or.inl (Or.inl h)
  · rcases Nat.lt_trichotomy (rankOf a) (rankOf b) with h2 | h2 | h2
    · exact Or.inl (Or.inr ⟨h, Or.inl h2⟩)
    · by_cases h3 : nameOrSelfText text a = nameOrSelfText text b
      · exact Or.inl (Or.inr ⟨h, Or.inr ⟨h2, Or.inr h3⟩⟩)
      · rcases jsLtChars_connex h3 with h4 | h4
        · exact Or.inl (Or.inr ⟨h, Or.inr ⟨h2, Or.inl h4⟩⟩)
        · exact Or.inr (Or.inr ⟨h.symm, Or.inr ⟨h2.symm, Or.inl h4⟩⟩)
    · exact Or.inr (Or.inr ⟨h.symm, Or.inl h2⟩)
  · exact Or.inr (Or.inl h)

/-- C1 (amended): when a class/interface member list with every member
kind in the order table is sanitized, the children are rendered in the
order produced by stable-sorting on the composite key with NON-static
members before static members, then table rank, then case-sensitive
lexical name order; the render order is a permutation of the members,
sorted for the composite key, and every pair already in key order —
including ties — keeps its original relative order (stability). -/
theorem c1_member_reordering (sf : SourceFile) (options : SerializationOptions)
    (pk : Option SyntaxKind) (node : Node)
    (h1 : node.kind = .SyntaxList)
    (h2 : pk = some .ClassDeclaration ∨ pk = some .InterfaceDeclaration)
    (h3 : ∀ c ∈ node.children, (memberDeclarationOrder c.kind).isSome = true)
    (h4 : node.flags.isPrivate = false)
    (h5 : node.children ≠ []) :
    ∃ ordered : List Node,
      getSanitizedText sf options pk node =
        getSanitizedTextList sf options (some node.kind) ordered ∧
      List.Perm ordered node.children ∧
      List.Pairwise (fun a b => specMemberLe sf.text a b = true) ordered ∧
      (∀ a b : Node, List.Sublist [a, b] node.children →
        specMemberLe sf.text a b = true → List.Sublist [a, b] ordered) := by
  have hqf : qualifierFailure sf options node = none := by
    refine qualifierFailure_of_none (getFirstQualifier_of_kind ?_ ?_)
    · rw [h1]
      intro hc
      cases hc
    · rw [h1]
      intro hc
      cases hc
  cases hcs : node.children with
  | nil => exact absurd hcs h5
  | cons c₀ cs₀ =>
    have hsort : memberListSortable pk node :=
      ⟨h1, h2, h3⟩
    have hcongr : jsSortBy (fun a b => memberCompare sf.text a b ≤ 0) (c₀ :: cs₀) =
        jsSortBy (specMemberLe sf.text) (c₀ :: cs₀) := by
      refine jsSortBy_congr ?_
      intro a hha b hhb
      rcases Option.isSome_iff_exists.mp (h3 a (by rw [hcs]; exact hha)) with ⟨ra, hra⟩
      rcases Option.isSome_iff_exists.mp (h3 b (by rw [hcs]; exact hhb)) with ⟨rb, hrb⟩
      have := memberCompare_le_iff sf.text hra hrb
      by_cases hle : memberCompare sf.text a b ≤ 0
      · simp [hle, this.mp hle]
      · have : specMemberLe sf.text a b ≠ true := fun hc => hle (this.mpr hc)
        simp [hle, this]
    refine ⟨jsSortBy (specMemberLe sf.text) (c₀ :: cs₀), ?_, ?_, ?_, ?_⟩
    · rw [getSanitizedText_branch sf options pk h4 hqf hcs]
      rw [if_pos hsort, hcongr]
    · exact jsSortBy_perm _ _
    · refine pairwise_jsSortBy ?_ ?_
      · intro x _ y _ z _ hxy hyz
        exact specMemberLe_trans hxy hyz
      · intro x _ y _
        exact specMemberLe_total sf.text x y
    · intro a b hab hle
      exact pair_sublist_jsSortBy hab hle

/-- Source text `xy`: a static field rendering `x` and an instance field
rendering `y`. -/
def staticSF : SourceFile :=
  ⟨"static.d.ts", ['x', 'y']⟩

/-- A static property declaration spanning `x`. -/
def memStatic : Node :=
  .mk .PropertyDeclaration ⟨false, false, true⟩ 0 0 1 (some (0, 1)) [] []

/-- An instance property declaration spanning `y`. -/
def memInst : Node :=
  .mk .PropertyDeclaration noFlags 1 1 2 (some (1, 2)) [] []

/-- The class member list declaring the static member first. -/
def staticListNode : Node :=
  .mk .SyntaxList noFlags 0 0 2 none [] [memStatic, memInst]

theorem memberListSortable_staticList :
    memberListSortable (some .ClassDeclaration) staticListNode := by
  refine ⟨rfl, Or.inl rfl, ?_⟩
  intro c hc
  simp only [staticListNode, Node.children_mk] at hc
  rcases List.mem_cons.mp hc with rfl | hc
  · rfl
  · rcases List.mem_cons.mp hc with rfl | hc
    · rfl
    · cases hc

/-- C1 is refuted as stated: on a class member list holding a static
property (source `x`) before an instance property (source `y`), the code
renders the instance member first (output `yx`), while stable-sorting on
the claim's static-members-first key leaves the order
`[memStatic, memInst]`, whose rendering is `xy`.  The code's comment says
"Static after normal" and the comparator agrees; the claim's
"static members before non-static members" does not. -/
theorem c1_member_reordering_counterexample :
    getSanitizedText staticSF emptyOptions (some .ClassDeclaration) staticListNode =
      .ok ['y', 'x'] ∧
    jsSortBy (claimStaticFirstLe staticSF.text) staticListNode.children =
      [memStatic, memInst] ∧
    getSanitizedTextList staticSF emptyOptions (some .SyntaxList)
      [memStatic, memInst] = .ok ['x', 'y'] ∧
    (Except.ok ['y', 'x'] : Except SerializerError (List Char)) ≠ .ok ['x', 'y'] := by
  have hqf : qualifierFailure staticSF emptyOptions staticListNode = none := by
    refine qualifierFailure_of_none (getFirstQualifier_of_kind ?_ ?_)
    · intro hc
      cases hc
    · intro hc
      cases hc
  have hS : getSanitizedText staticSF emptyOptions (some .SyntaxList) memStatic =
      .ok ['x'] := by
    rw [getSanitizedText_leaf staticSF emptyOptions (some .SyntaxList)
      (show memStatic.flags.isPrivate = false from rfl)
      (qualifierFailure_of_none (getFirstQualifier_of_leaf
        (show memStatic.children = [] from rfl)))
      (show memStatic.children = [] from rfl)]
    rfl
  have hI : getSanitizedText staticSF emptyOptions (some .SyntaxList) memInst =
      .ok ['y'] := by
    rw [getSanitizedText_leaf staticSF emptyOptions (some .SyntaxList)
      (show memInst.flags.isPrivate = false from rfl)
      (qualifierFailure_of_none (getFirstQualifier_of_leaf
        (show memInst.children = [] from rfl)))
      (show memInst.children = [] from rfl)]
    rfl
  refine ⟨?_, ?_, ?_, ?_⟩
  · rw [getSanitizedText_branch staticSF emptyOptions (some .ClassDeclaration)
      (show staticListNode.flags.isPrivate = false from rfl) hqf
      (show staticListNode.children = memStatic :: [memInst] from rfl)]
    rw [if_pos memberListSortable_staticList]
    rw [show jsSortBy (fun a b => memberCompare staticSF.text a b ≤ 0)
      (memStatic :: [memInst]) = [memInst, memStatic] from rfl]
    rw [show (staticListNode.kind) = SyntaxKind.SyntaxList from rfl]
    rw [getSanitizedTextList_cons, hI, getSanitizedTextList_cons, hS,
      getSanitizedTextList_nil]
    rfl
  · rfl
  · rw [getSanitizedTextList_cons, hS, getSanitizedTextList_cons, hI,
      getSanitizedTextList_nil]
    rfl
  · intro h
    injection h with h'
    exact absurd h' (by decide)

/-- Source text `zac`: an instance method `z`(eta), a field `a`(lpha) and
a constructor `c`, declared in that order. -/
def classSF : SourceFile :=
  ⟨"class.d.ts", ['z', 'a', 'c']⟩

def memZeta : Node :=
  .mk .MethodDeclaration noFlags 0 0 1 (some (0, 1)) [] []

def memAlpha : Node :=
  .mk .PropertyDeclaration noFlags 1 1 2 (some (1, 2)) [] []

def memCtor : Node :=
  .mk .Constructor noFlags 2 2 3 none [] []

def classList : Node :=
  .mk .SyntaxList noFlags 0 0 3 none [] [memZeta, memAlpha, memCtor]

theorem c1_member_reordering_witness :
    (∃ ordered : List Node,
      getSanitizedText classSF emptyOptions (some .ClassDeclaration) classList =
        getSanitizedTextList classSF emptyOptions (some classList.kind) ordered ∧
      List.Perm ordered classList.children ∧
      List.Pairwise (fun a b => specMemberLe classSF.text a b = true) ordered ∧
      (∀ a b : Node, List.Sublist [a, b] classList.children →
        specMemberLe classSF.text a b = true → List.Sublist [a, b] ordered)) ∧
    getSanitizedText classSF emptyOptions (some .ClassDeclaration) classList =
      .ok ['a', 'c', 'z'] := by
  constructor
  · refine c1_member_reordering classSF emptyOptions (some .ClassDeclaration) classList
      rfl (Or.inl rfl) ?_ rfl ?_
    · intro c hc
      simp only [classList, Node.children_mk] at hc
      rcases List.mem_cons.mp hc with rfl | hc
      · rfl
      · rcases List.mem_cons.mp hc with rfl | hc
        · rfl
        · rcases List.mem_cons.mp hc with rfl | hc
          · rfl
          · cases hc
    · intro hc
      cases hc
  · have hqf : qualifierFailure classSF emptyOptions classList = none := by
      refine qualifierFailure_of_none (getFirstQualifier_of_kind ?_ ?_)
      · intro hc
        cases hc
      · intro hc
        cases hc
    have hms : memberListSortable (some .ClassDeclaration) classList := by
      refine ⟨rfl, Or.inl rfl, ?_⟩
      intro c hc
      simp only [classList, Node.children_mk] at hc
      rcases List.mem_cons.mp hc with rfl | hc
      · rfl
      · rcases List.mem_cons.mp hc with rfl | hc
        · rfl
        · rcases List.mem_cons.mp hc with rfl | hc
          · rfl
          · cases hc
    have hz : getSanitizedText classSF emptyOptions (some .SyntaxList) memZeta =
        .ok ['z'] := by
      rw [getSanitizedText_leaf classSF emptyOptions (some .SyntaxList)
        (show memZeta.flags.isPrivate = false from rfl)
        (qualifierFailure_of_none (getFirstQualifier_of_leaf
          (show memZeta.children = [] from rfl)))
        (show memZeta.children = [] from rfl)]
      rfl
    have ha : getSanitizedText classSF emptyOptions (some .SyntaxList) memAlpha =
        .ok ['a'] := by
      rw [getSanitizedText_leaf classSF emptyOptions (some .SyntaxList)
        (show memAlpha.flags.isPrivate = false from rfl)
        (qualifierFailure_of_none (getFirstQualifier_of_leaf
          (show memAlpha.children = [] from rfl)))
        (show memAlpha.children = [] from rfl)]
      rfl
    have hc : getSanitizedText classSF emptyOptions (some .SyntaxList) memCtor =
        .ok ['c'] := by
      rw [getSanitizedText_leaf classSF emptyOptions (some .SyntaxList)
        (show memCtor.flags.isPrivate = false from rfl)
        (qualifierFailure_of_none (getFirstQualifier_of_leaf
          (show memCtor.children = [] from rfl)))
        (show memCtor.children = [] from rfl)]
      rfl
    rw [getSanitizedText_branch classSF emptyOptions (some .ClassDeclaration)
      (show classList.flags.isPrivate = false from rfl) hqf
      (show classList.children = memZeta :: [memAlpha, memCtor] from rfl)]
    rw [if_pos hms]
    rw [show jsSortBy (fun a b => memberCompare classSF.text a b ≤ 0)
      (memZeta :: [memAlpha, memCtor]) = [memAlpha, memCtor, memZeta] from rfl]
    rw [show (classList.kind) = SyntaxKind.SyntaxList from rfl]
    rw [getSanitizedTextList_cons, ha, getSanitizedTextList_cons, hc,
      getSanitizedTextList_cons, hz, getSanitizedTextList_nil]
    rfl

end TsApiGuardian
